import Mathlib

/-!
Shallow embedding of the Investment Manager calculation core
(backend/utils/holdings.py, mutual_funds.py, xirr.py, zones.py,
net_worth.py), together with theorems checking the natural-language
specification against it.

Modelling conventions:
* Python decimal numbers (floats) are modelled as exact rationals `ℚ`;
  the floating-point power `(1 + rate) ** years` inside the XIRR solver
  is a non-integer power, so it is abstracted as an explicit function
  parameter `pw : ℚ → ℚ → ℚ`; every theorem about the solver is proved
  for all `pw`, hence in particular for the real power function.
* Dates (`datetime.date`) are modelled as proleptic ordinal day numbers
  of type `ℤ`; `datetime.now().date()` is passed explicitly as a `today`
  parameter.
* Python dictionaries (which preserve insertion order) are modelled as
  association lists `List (String × β)` with new keys appended at the end.
* Python's stable `sorted(..., key=...)` is modelled by insertion sort
  with the `≤` relation on the key, which is extensionally the unique
  stable sort.
* Python strings are `String` / `List Char`; `str.replace` for the
  three-character patterns `".NS"` / `".BO"` and `str.upper` are
  implemented structurally below so that concrete instances evaluate.
-/

namespace InvMgr

/-- Python `int(x)` conversion of a rational: truncation toward zero. -/
def pyInt (q : ℚ) : ℤ := if 0 ≤ q then ⌊q⌋ else ⌈q⌉

/-- ASCII upper-casing of one character, as `str.upper` acts on ASCII. -/
def upChar (c : Char) : Char :=
  if 97 ≤ c.toNat ∧ c.toNat ≤ 122 then Char.ofNat (c.toNat - 32) else c

/-- Left-to-right, non-overlapping removal of every occurrence of the
three-character pattern `p1 p2 p3`, i.e. `str.replace(p1p2p3, '')` for a
three-character pattern. -/
def stripSub (p1 p2 p3 : Char) : List Char → List Char
  | c1 :: c2 :: c3 :: rest =>
    if c1 = p1 ∧ c2 = p2 ∧ c3 = p3 then stripSub p1 p2 p3 rest
    else c1 :: stripSub p1 p2 p3 (c2 :: c3 :: rest)
  | s => s

/-- `normalize_symbol` (backend/utils/holdings.py lines 9-13):
`symbol.replace('.NS', '').replace('.BO', '').upper()`, with the empty
string (Python falsy) mapped to `''`. -/
def normalize_symbol (s : String) : String :=
  if s = "" then ""
  else String.mk ((stripSub '.' 'B' 'O' (stripSub '.' 'N' 'S' s.data)).map upChar)

/-- A purchase lot `(date, quantity, price)` as stored in the FIFO deque. -/
abbrev Lot := ℤ × ℚ × ℚ

/-- Total remaining quantity over a list of lots. -/
def lotsQty (lots : List Lot) : ℚ := (lots.map (fun l => l.2.1)).sum

/-- Total remaining cost basis (`quantity * price`) over a list of lots. -/
def lotsCost (lots : List Lot) : ℚ := (lots.map (fun l => l.2.1 * l.2.2)).sum

/-- A `PortfolioTransaction` record as consumed by `calculate_holdings`. -/
structure Txn where
  stock_symbol : String
  stock_name : String
  transaction_type : String
  transaction_date : ℤ
  quantity : ℚ
  price : ℚ

/-- The per-symbol bucket built by `calculate_holdings` while processing
transactions (the dict value, with its internal `lots` deque). -/
structure Holding where
  symbol : String
  name : String
  quantity : ℚ
  invested_amount : ℚ
  realized_pnl : ℚ
  transactions : List Txn
  lots : List Lot

/-- The SELL loop of `calculate_holdings` (holdings.py lines 99-119):
consumes lots front-first while `remaining_to_sell > 0`; returns
`(total_cost_basis, realized_pnl_delta, remaining_lots, unfilled_to_sell)`. -/
def sellFifo (sellPrice : ℚ) : ℚ → List Lot → ℚ × ℚ × List Lot × ℚ
  | toSell, [] => (0, 0, [], toSell)
  | toSell, (d, q, p) :: rest =>
    if toSell ≤ 0 then (0, 0, (d, q, p) :: rest, toSell)
    else if q ≤ toSell then
      let r := sellFifo sellPrice (toSell - q) rest
      (q * p + r.1, (sellPrice - p) * q + r.2.1, r.2.2)
    else (toSell * p, (sellPrice - p) * toSell, ((d, q - toSell, p) :: rest, 0))

/-- The fresh bucket created when a symbol is first seen
(holdings.py lines 80-89). -/
def emptyHolding (symbol name : String) : Holding :=
  { symbol := symbol, name := name, quantity := 0, invested_amount := 0,
    realized_pnl := 0, transactions := [], lots := [] }

/-- Effect of one transaction on its (already resolved) bucket
(holdings.py lines 91-125); unknown transaction types only append to the
transaction log, as in the source. -/
def applyTxn (h : Holding) (t : Txn) : Holding :=
  if t.transaction_type = "BUY" then
    { h with lots := h.lots ++ [(t.transaction_date, t.quantity, t.price)],
             quantity := h.quantity + t.quantity,
             invested_amount := h.invested_amount + t.quantity * t.price,
             transactions := h.transactions ++ [t] }
  else if t.transaction_type = "SELL" then
    let r := sellFifo t.price t.quantity h.lots
    { h with quantity := h.quantity - t.quantity,
             invested_amount := h.invested_amount - r.1,
             realized_pnl := h.realized_pnl + r.2.1,
             lots := r.2.2.1,
             transactions := h.transactions ++ [t] }
  else { h with transactions := h.transactions ++ [t] }

/-- The scan over existing dict keys looking for one with the same
normalized symbol (holdings.py lines 71-75). -/
def findExistingKey (holdings : List (String × Holding)) (normalized : String) :
    Option String :=
  (holdings.find? (fun kv => normalize_symbol kv.1 = normalized)).map (fun kv => kv.1)

/-- The key a transaction's bucket resolves to: the first existing key with
a matching normalized symbol, else the transaction's literal symbol
(holdings.py lines 67-79). -/
def resolveKey (holdings : List (String × Holding)) (t : Txn) : String :=
  match findExistingKey holdings (normalize_symbol t.stock_symbol) with
  | some k => k
  | none => t.stock_symbol

/-- `if symbol not in holdings: holdings[symbol] = {...}` (lines 80-89). -/
def ensureBucket (holdings : List (String × Holding)) (k : String) (t : Txn) :
    List (String × Holding) :=
  if (holdings.find? (fun kv => kv.1 = k)).isSome then holdings
  else holdings ++ [(k, emptyHolding k t.stock_name)]

/-- Processing of one transaction by the main loop of `calculate_holdings`
(holdings.py lines 64-125). -/
def processTxn (holdings : List (String × Holding)) (t : Txn) :
    List (String × Holding) :=
  (ensureBucket holdings (resolveKey holdings t) t).map
    (fun kv => if kv.1 = resolveKey holdings t then (kv.1, applyTxn kv.2 t) else kv)

/-- `sorted(transactions, key=lambda t: t.transaction_date)` (line 62):
Python's stable sort by date, modelled by insertion sort on `≤` of dates. -/
def sortTxns (ts : List Txn) : List Txn :=
  List.insertionSort (fun a b => a.transaction_date ≤ b.transaction_date) ts

/-- The internal holdings state after the main loop of `calculate_holdings`. -/
def processAll (ts : List Txn) : List (String × Holding) :=
  (sortTxns ts).foldl processTxn []

/-- `calculate_holding_period_days` (holdings.py lines 16-45): quantity
weighted average age in days of the remaining lots, truncated to an
integer; `0` for an empty deque or a zero total quantity. -/
def calculate_holding_period_days (today : ℤ) (lots : List Lot) : ℤ :=
  if lots = [] then 0
  else
    let total_quantity := lotsQty lots
    if total_quantity = 0 then 0
    else pyInt ((lots.map
      (fun l => ((today - l.1 : ℤ) : ℚ) * (l.2.1 / total_quantity))).sum)

/-- The per-symbol record returned by `calculate_holdings` after the final
pass (holdings.py lines 127-132), with the internal `lots` deque removed. -/
structure HoldingSnapshot where
  symbol : String
  name : String
  quantity : ℚ
  invested_amount : ℚ
  realized_pnl : ℚ
  transactions : List Txn
  has_current_holdings : Bool
  holding_period_days : ℤ

/-- Final pass of `calculate_holdings` over one bucket (lines 128-132). -/
def finalizeHolding (today : ℤ) (h : Holding) : HoldingSnapshot :=
  { symbol := h.symbol, name := h.name, quantity := h.quantity,
    invested_amount := h.invested_amount, realized_pnl := h.realized_pnl,
    transactions := h.transactions,
    has_current_holdings := decide (0 < h.quantity),
    holding_period_days :=
      if 0 < h.quantity then calculate_holding_period_days today h.lots else 0 }

/-- `calculate_holdings` (holdings.py lines 48-134), with `today` made an
explicit parameter (the source reads `datetime.now()`). -/
def calculate_holdings (today : ℤ) (ts : List Txn) :
    List (String × HoldingSnapshot) :=
  (processAll ts).map (fun kv => (kv.1, finalizeHolding today kv.2))

/-- Dictionary lookup on the association-list model. -/
def getEntry {β : Type} (s : List (String × β)) (k : String) : Option β :=
  (s.find? (fun kv => kv.1 = k)).map (fun kv => kv.2)

end InvMgr

namespace InvMgr

/-- A `MutualFundTransaction` record as consumed by `calculate_mf_holdings`.
`scheme_id` and `scheme_code` use `""` for Python's falsy `None`/empty. -/
structure MFTxn where
  scheme_id : String
  scheme_code : String
  scheme_name : String
  transaction_type : String
  transaction_date : ℤ
  units : ℚ
  nav : ℚ
  amount : ℚ

/-- A mutual-fund purchase lot (mutual_funds.py lines 59-64). -/
structure MFLot where
  units : ℚ
  nav : ℚ
  amount : ℚ
  date : ℤ

/-- Total remaining units over a list of mutual-fund lots. -/
def mfLotsUnits (lots : List MFLot) : ℚ := (lots.map (fun l => l.units)).sum

/-- Total remaining invested amount over a list of mutual-fund lots. -/
def mfLotsAmount (lots : List MFLot) : ℚ := (lots.map (fun l => l.amount)).sum

/-- The per-scheme bucket built by `calculate_mf_holdings`. -/
structure MFHolding where
  scheme_id : String
  scheme_code : String
  scheme_name : String
  units : ℚ
  invested_amount : ℚ
  realized_pnl : ℚ
  lots : List MFLot

/-- Bucket key selection (mutual_funds.py lines 31-34): `scheme_id` if
truthy, else `scheme_code`, else `"unknown_" + scheme_name`. -/
def mfKey (t : MFTxn) : String :=
  if t.scheme_id ≠ "" then t.scheme_id
  else if t.scheme_code ≠ "" then t.scheme_code
  else "unknown_" ++ t.scheme_name

/-- The fresh mutual-fund bucket (mutual_funds.py lines 37-46). -/
def emptyMFHolding (t : MFTxn) : MFHolding :=
  { scheme_id := t.scheme_id, scheme_code := t.scheme_code,
    scheme_name := t.scheme_name, units := 0, invested_amount := 0,
    realized_pnl := 0, lots := [] }

/-- The SELL loop of `calculate_mf_holdings` (mutual_funds.py lines 71-87):
consumes lots front-first while `units_to_sell > 0`; a partial consumption
takes a pro-rata share `(units_to_sell / lot.units) * lot.amount` of the
lot's amount. Returns `(total_cost_basis, remaining_lots)`. -/
def mfSellFifo : ℚ → List MFLot → ℚ × List MFLot
  | _, [] => (0, [])
  | toSell, lot :: rest =>
    if toSell ≤ 0 then (0, lot :: rest)
    else if lot.units ≤ toSell then
      let r := mfSellFifo (toSell - lot.units) rest
      (lot.amount + r.1, r.2)
    else
      let cost := (toSell / lot.units) * lot.amount
      (cost, { lot with units := lot.units - toSell,
                        amount := lot.amount - cost } :: rest)

/-- Effect of one mutual-fund transaction on its bucket
(mutual_funds.py lines 50-101); `SWITCH` and unknown types are a no-op
apart from the unconditional `scheme_name` refresh (line 51). -/
def applyMFTxn (h : MFHolding) (t : MFTxn) : MFHolding :=
  if t.transaction_type = "BUY" then
    { h with scheme_name := t.scheme_name,
             units := h.units + t.units,
             invested_amount := h.invested_amount + t.amount,
             lots := h.lots ++
               [{ units := t.units, nav := t.nav, amount := t.amount,
                  date := t.transaction_date }] }
  else if t.transaction_type = "SELL" then
    { h with scheme_name := t.scheme_name,
             units := h.units - t.units,
             invested_amount := h.invested_amount - (mfSellFifo t.units h.lots).1,
             lots := (mfSellFifo t.units h.lots).2,
             realized_pnl :=
               h.realized_pnl + (t.amount - (mfSellFifo t.units h.lots).1) }
  else { h with scheme_name := t.scheme_name }

/-- `if key not in holdings: holdings[key] = {...}` (mutual_funds.py
lines 37-46). -/
def mfEnsureBucket (holdings : List (String × MFHolding)) (t : MFTxn) :
    List (String × MFHolding) :=
  if (holdings.find? (fun kv => kv.1 = mfKey t)).isSome then holdings
  else holdings ++ [(mfKey t, emptyMFHolding t)]

/-- Processing of one transaction by the main loop of
`calculate_mf_holdings` (mutual_funds.py lines 30-101). -/
def processMFTxn (holdings : List (String × MFHolding)) (t : MFTxn) :
    List (String × MFHolding) :=
  (mfEnsureBucket holdings t).map
    (fun kv => if kv.1 = mfKey t then (kv.1, applyMFTxn kv.2 t) else kv)

/-- `sorted(transactions, key=lambda t: t.transaction_date)`
(mutual_funds.py line 28). -/
def sortMFTxns (ts : List MFTxn) : List MFTxn :=
  List.insertionSort (fun a b => a.transaction_date ≤ b.transaction_date) ts

/-- `calculate_mf_holdings` (mutual_funds.py lines 12-103); the returned
dict keeps the internal lot deques. -/
def calculate_mf_holdings (ts : List MFTxn) : List (String × MFHolding) :=
  if ts.isEmpty then [] else (sortMFTxns ts).foldl processMFTxn []

/-- Convergence tolerance of the XIRR solver: `1e-6` (xirr.py line 8). -/
def xirrTol : ℚ := 1 / 1000000

/-- `sorted(normalized_cash_flows, key=lambda x: x[0])` (xirr.py line 35). -/
def sortFlows (fs : List (ℤ × ℚ)) : List (ℤ × ℚ) :=
  List.insertionSort (fun a b => a.1 ≤ b.1) fs

/-- `signs = [1 if amount > 0 else -1 for _, amount in cash_flows if amount != 0]`
(xirr.py line 38), taken over the date-sorted flows. -/
def signsList (fs : List (ℤ × ℚ)) : List ℤ :=
  (fs.filter (fun f => f.2 ≠ 0)).map (fun f => if 0 < f.2 then (1 : ℤ) else -1)

/-- Conversion to `(days_from_start, amount)` pairs over the sorted flows
(xirr.py lines 43-49); empty input stays empty. -/
def prepFlows (fs : List (ℤ × ℚ)) : List (ℤ × ℚ) :=
  match sortFlows fs with
  | [] => []
  | s :: rest => (s :: rest).map (fun f => (f.1 - s.1, f.2))

/-- One pass of the NPV / derivative accumulation (xirr.py lines 55-67),
with the floating-point power `(1 + rate) ** years` abstracted as `pw`.
Returns `(npv, dnpv)`. -/
def npvD (pw : ℚ → ℚ → ℚ) (flows : List (ℤ × ℚ)) (rate : ℚ) : ℚ × ℚ :=
  flows.foldl
    (fun acc f =>
      let years : ℚ := (f.1 : ℚ) / 365
      (acc.1 + f.2 / pw (1 + rate) years,
       acc.2 + (-years) * f.2 / pw (1 + rate) (years + 1)))
    (0, 0)

/-- The clamp `if new_rate <= -0.99: new_rate = -0.99` (xirr.py lines 80-81). -/
def clampRate (r : ℚ) : ℚ := if r ≤ -(99 / 100) then -(99 / 100) else r

/-- The Newton-Raphson iteration loop of `xirr` (xirr.py lines 53-86),
structurally recursive in the remaining iteration budget; the source runs
it with `max_iterations = 100` and falls through to `None`. -/
def newtonLoop (pw : ℚ → ℚ → ℚ) (flows : List (ℤ × ℚ)) : ℚ → ℕ → Option ℚ
  | _, 0 => none
  | r, fuel + 1 =>
    if |(npvD pw flows r).1| < xirrTol then some r
    else if (npvD pw flows r).2 = 0 then none
    else
      newtonLoop pw flows
        (clampRate (r - (npvD pw flows r).1 / (npvD pw flows r).2)) fuel

/-- `xirr` (xirr.py lines 8-86) at the default arguments
`guess = 0.1, max_iterations = 100, tolerance = 1e-6` (every call site in
the repository uses the defaults). -/
def xirr (pw : ℚ → ℚ → ℚ) (cash_flows : List (ℤ × ℚ)) : Option ℚ :=
  if cash_flows.length < 2 then none
  else if (signsList (sortFlows cash_flows)).dedup.length < 2 then none
  else newtonLoop pw (prepFlows cash_flows) (1 / 10) 100

/-- One Newton-Raphson update on the prepared flows: the rate the next
iteration would evaluate NPV at.  When the derivative is zero the loop
returns `None` instead of stepping, so the iterate is left in place. -/
def nextRate (pw : ℚ → ℚ → ℚ) (flows : List (ℤ × ℚ)) (r : ℚ) : ℚ :=
  if (npvD pw flows r).2 = 0 then r
  else clampRate (r - (npvD pw flows r).1 / (npvD pw flows r).2)

/-- The sequence of Newton-Raphson iterates starting from `guess`. -/
def ratesFrom (pw : ℚ → ℚ → ℚ) (flows : List (ℤ × ℚ)) (guess : ℚ) : ℕ → ℚ
  | 0 => guess
  | n + 1 => nextRate pw flows (ratesFrom pw flows guess n)

/-- Convergence test `abs(npv) < tolerance` (xirr.py line 70) at a rate. -/
def convergedAt (pw : ℚ → ℚ → ℚ) (flows : List (ℤ × ℚ)) (r : ℚ) : Prop :=
  |(npvD pw flows r).1| < xirrTol

/-- The `n`-th Newton-Raphson iterate of `xirr` on a cash-flow list, from
the default guess `0.1`. -/
def xirrRateAt (pw : ℚ → ℚ → ℚ) (fs : List (ℤ × ℚ)) (n : ℕ) : ℚ :=
  ratesFrom pw (prepFlows fs) (1 / 10) n

end InvMgr

namespace InvMgr

/-- ASCII decimal digit test. -/
def isDigitChar (c : Char) : Bool := 48 ≤ c.toNat ∧ c.toNat ≤ 57

/-- Whitespace test for Python's `str.strip()` / `float()` stripping. -/
def isWSChar (c : Char) : Bool :=
  c = ' ' ∨ c = Char.ofNat 9 ∨ c = Char.ofNat 10 ∨ c = Char.ofNat 13 ∨
  c = Char.ofNat 11 ∨ c = Char.ofNat 12

/-- Strip leading and trailing whitespace, as Python `str.strip()`. -/
def trimWS (cs : List Char) : List Char :=
  ((cs.dropWhile isWSChar).reverse.dropWhile isWSChar).reverse

/-- Numeric value of a digit string (`0` for the empty list; only called
after an all-digit check). -/
def digitsVal (cs : List Char) : ℕ :=
  cs.foldl (fun acc c => 10 * acc + (c.toNat - 48)) 0

/-- Split a character list at the first character satisfying `p`:
`some (before, after)` or `none` when no such character occurs. -/
def splitFirstBy (p : Char → Bool) : List Char → Option (List Char × List Char)
  | [] => none
  | c :: cs =>
    if p c then some ([], cs)
    else (splitFirstBy p cs).map (fun r => (c :: r.1, r.2))

/-- Split a character list on every occurrence of `sep`, as Python
`str.split(sep)` for a one-character separator. -/
def splitAllOn (sep : Char) : List Char → List (List Char)
  | [] => [[]]
  | c :: cs =>
    let r := splitAllOn sep cs
    if c = sep then [] :: r
    else
      match r with
      | [] => [[c]]
      | h :: t => (c :: h) :: t

/-- Mantissa of a Python decimal literal: `digits`, `digits.digits`,
`.digits` or `digits.` with at least one digit in total. -/
def parseMantissa (cs : List Char) : Option ℚ :=
  match splitFirstBy (fun c => c = Char.ofNat 46) cs with
  | none =>
    if cs ≠ [] ∧ cs.all isDigitChar then some ((digitsVal cs : ℕ) : ℚ) else none
  | some r =>
    if (r.1 ≠ [] ∨ r.2 ≠ []) ∧ r.1.all isDigitChar ∧ r.2.all isDigitChar then
      some (((digitsVal r.1 : ℕ) : ℚ) +
        ((digitsVal r.2 : ℕ) : ℚ) / (10 : ℚ) ^ r.2.length)
    else none

/-- Unsigned part of a Python `float()` literal: a mantissa with an
optional `e`/`E` exponent part. -/
def parseUnsigned (cs : List Char) : Option ℚ :=
  match splitFirstBy (fun c => c = 'e' ∨ c = 'E') cs with
  | none => parseMantissa cs
  | some r =>
    let se : ℤ × List Char :=
      match r.2 with
      | '+' :: t => (1, t)
      | '-' :: t => (-1, t)
      | t => (1, t)
    match parseMantissa r.1 with
    | none => none
    | some m =>
      if se.2 ≠ [] ∧ se.2.all isDigitChar then
        some (m * (10 : ℚ) ^ (se.1 * (digitsVal se.2 : ℕ) : ℤ))
      else none

/-- Model of the Python builtin `float(str)` on decimal literals:
optional surrounding whitespace, optional sign, decimal mantissa,
optional exponent.  (`inf`/`nan` forms and digit-group underscores are
omitted from the model; the repository never feeds them to `float`.)
Returns `none` where `float()` raises `ValueError`. -/
def pyFloat (s : String) : Option ℚ :=
  match trimWS s.data with
  | '+' :: t => parseUnsigned t
  | '-' :: t => (parseUnsigned t).map (fun q => -q)
  | t => parseUnsigned t

/-- `parse_zone` (backend/utils/zones.py lines 7-38): empty input gives
`(None, None)`; a stripped input containing a hyphen is split on every
hyphen and the first two pieces are parsed (`ValueError`/`IndexError`
give `(None, None)`); otherwise the whole input is parsed as a single
value `v`, giving `(v, v)` or `(None, None)`. -/
def parse_zone (zone_str : String) : Option ℚ × Option ℚ :=
  if zone_str = "" then (none, none)
  else if ('-' ∈ trimWS zone_str.data) then
    match (splitAllOn '-' (trimWS zone_str.data)).get? 0,
          (splitAllOn '-' (trimWS zone_str.data)).get? 1 with
    | some a, some b =>
      match pyFloat (String.mk a), pyFloat (String.mk b) with
      | some x, some y => (some x, some y)
      | _, _ => (none, none)
    | _, _ => (none, none)
  else
    match pyFloat (String.mk (trimWS zone_str.data)) with
    | some v => (some v, some v)
    | none => (none, none)

/-- The zone parser as the specification describes it: on a hyphenated
input, split once on the FIRST hyphen and parse the two sides.  Stated
from the spec's words, for comparison with `parse_zone` above. -/
def parse_zone_firstSplit (zone_str : String) : Option ℚ × Option ℚ :=
  if zone_str = "" then (none, none)
  else if ('-' ∈ trimWS zone_str.data) then
    match splitFirstBy (fun c => c = Char.ofNat 45) (trimWS zone_str.data) with
    | some r =>
      match pyFloat (String.mk r.1), pyFloat (String.mk r.2) with
      | some x, some y => (some x, some y)
      | _, _ => (none, none)
    | none => (none, none)
  else
    match pyFloat (String.mk (trimWS zone_str.data)) with
    | some v => (some v, some v)
    | none => (none, none)

end InvMgr

namespace InvMgr

/-- Python `round(x)` to an integer: round-half-to-even. -/
def roundHalfEven (q : ℚ) : ℤ :=
  let f := ⌊q⌋
  let r := q - f
  if r < 1 / 2 then f
  else if 1 / 2 < r then f + 1
  else if Even f then f else f + 1

/-- Python `round(x, 2)`: round-half-to-even at two decimal places.
(The source rounds binary floats; the model rounds the exact rational.) -/
def round2 (q : ℚ) : ℚ := (roundHalfEven (q * 100) : ℚ) / 100

/-- A `FixedDeposit` row as used by net_worth.py: `maturity_amount = 0`
models a falsy (missing) maturity amount. -/
structure FD where
  start_date : ℤ
  maturity_date : ℤ
  principal_amount : ℚ
  maturity_amount : ℚ
  status : String

/-- An `EPFAccount` row: zero balances model falsy (missing) values and
`opening_date = none` models a missing opening date. -/
structure EPF where
  opening_date : Option ℤ
  opening_balance : ℚ
  current_balance : ℚ

/-- An `NPSAccount` row, conventions as for `EPF`. -/
structure NPS where
  opening_date : Option ℤ
  opening_balance : ℚ
  current_value : ℚ
  current_balance : ℚ

/-- A `SavingsAccount` row. -/
structure Savings where
  current_balance : ℚ

/-- A `LendingRecord` row: `outstanding_amount = 0` models `None`
(the source reads `rec.outstanding_amount or 0`). -/
structure Lending where
  outstanding_amount : ℚ
  status : String

/-- An `OtherInvestment` row: `current_value = 0` models a falsy value,
in which case the source falls back to `purchase_value`. -/
structure OtherInv where
  current_value : ℚ
  purchase_value : ℚ

/-- The `all_assets` dictionary handed to the aggregator. -/
structure AllAssets where
  stocks : List Txn
  mutual_funds : List MFTxn
  fixed_deposits : List FD
  epf : List EPF
  nps : List NPS
  savings : List Savings
  lending : List Lending
  other : List OtherInv

/-- `datetime(2020, 1, 1).date()` (net_worth.py lines 385 and 403) as a
proleptic ordinal day number. -/
def defaultOpeningDate : ℤ := 737425

/-- Invested amount summed over stock buckets still holding a positive
quantity (net_worth.py line 44 and line 324). -/
def stocksInvestedValue (today : ℤ) (ts : List Txn) : ℚ :=
  (((calculate_holdings today ts).map (fun kv => kv.2)).filter
    (fun h => 0 < h.quantity)).foldl (fun acc h => acc + h.invested_amount) 0

/-- Invested amount summed over mutual-fund buckets still holding a
positive number of units (net_worth.py line 48 and line 349). -/
def mfInvestedValue (ts : List MFTxn) : ℚ :=
  (((calculate_mf_holdings ts).map (fun kv => kv.2)).filter
    (fun h => 0 < h.units)).foldl (fun acc h => acc + h.invested_amount) 0

/-- `calculate_total_net_worth(all_assets)['total']` (net_worth.py lines
12-81): the eight per-type values are summed and the total is rounded to
two decimals. -/
def netWorthTotal (today : ℤ) (a : AllAssets) : ℚ :=
  round2 (stocksInvestedValue today a.stocks
    + mfInvestedValue a.mutual_funds
    + ((a.fixed_deposits.filter (fun fd => fd.status = "active")).map
        (fun fd => fd.principal_amount)).sum
    + (a.epf.map (fun acc => acc.current_balance)).sum
    + (a.nps.map (fun acc => acc.current_value)).sum
    + (a.savings.map (fun acc => acc.current_balance)).sum
    + ((a.lending.filter (fun rec => rec.status = "active")).map
        (fun rec => rec.outstanding_amount)).sum
    + (a.other.map (fun inv =>
        if inv.current_value ≠ 0 then inv.current_value
        else inv.purchase_value)).sum)

/-- Cash flows of the stock transactions alone (net_worth.py lines
311-320): BUY is an outflow of `quantity * price`, SELL an inflow, other
types are skipped. -/
def stockTxnFlows (ts : List Txn) : List (ℤ × ℚ) :=
  ts.foldr
    (fun t acc =>
      if t.transaction_type = "BUY" then
        (t.transaction_date, -(t.quantity * t.price)) :: acc
      else if t.transaction_type = "SELL" then
        (t.transaction_date, t.quantity * t.price) :: acc
      else acc) []

/-- `stock_flows` (net_worth.py lines 310-330): historical stock flows
plus the current stock value dated today when positive. -/
def stock_flows (today : ℤ) (a : AllAssets) : List (ℤ × ℚ) :=
  stockTxnFlows a.stocks ++
    (if 0 < stocksInvestedValue today a.stocks
     then [(today, stocksInvestedValue today a.stocks)] else [])

/-- Cash flows of the mutual-fund transactions alone (net_worth.py lines
336-345): BUY is an outflow of `amount`, SELL an inflow. -/
def mfTxnFlows (ts : List MFTxn) : List (ℤ × ℚ) :=
  ts.foldr
    (fun t acc =>
      if t.transaction_type = "BUY" then (t.transaction_date, -t.amount) :: acc
      else if t.transaction_type = "SELL" then (t.transaction_date, t.amount) :: acc
      else acc) []

/-- `mf_flows` (net_worth.py lines 335-353): historical mutual-fund flows
plus the current mutual-fund value dated today when positive. -/
def mf_flows (today : ℤ) (a : AllAssets) : List (ℤ × ℚ) :=
  mfTxnFlows a.mutual_funds ++
    (if 0 < mfInvestedValue a.mutual_funds
     then [(today, mfInvestedValue a.mutual_funds)] else [])

/-- The `fd_flows` entries of one fixed deposit (net_worth.py lines
360-372): the principal outflow at the start date, then for an active
deposit with a maturity amount either todays principal (maturity still
ahead) or the maturity inflow (already matured). -/
def fdFlowEntries (today : ℤ) (fd : FD) : List (ℤ × ℚ) :=
  (fd.start_date, -fd.principal_amount) ::
    (if fd.status = "active" ∧ fd.maturity_amount ≠ 0 then
      (if today ≤ fd.maturity_date then [(today, fd.principal_amount)]
       else [(fd.maturity_date, fd.maturity_amount)])
     else [])

/-- The share of one fixed deposit appended to `all_cash_flows`
(net_worth.py lines 363 and 372): the start outflow always, the maturity
inflow only for an already matured active deposit. -/
def fdAllEntries (today : ℤ) (fd : FD) : List (ℤ × ℚ) :=
  (fd.start_date, -fd.principal_amount) ::
    (if fd.status = "active" ∧ fd.maturity_amount ≠ 0 ∧ fd.maturity_date < today
     then [(fd.maturity_date, fd.maturity_amount)] else [])

/-- `fd_flows` (net_worth.py lines 358-372). -/
def fd_flows (today : ℤ) (a : AllAssets) : List (ℤ × ℚ) :=
  a.fixed_deposits.foldr (fun fd acc => fdFlowEntries today fd ++ acc) []

/-- The opening-balance outflow of one EPF account (net_worth.py lines
383-388), present when the opening balance is positive. -/
def epfOpeningEntries (acc : EPF) : List (ℤ × ℚ) :=
  if 0 < acc.opening_balance then
    [((acc.opening_date.getD defaultOpeningDate), -acc.opening_balance)]
  else []

/-- `epf_flows` (net_worth.py lines 378-392): opening outflows plus the
positive current balances dated today. -/
def epf_flows (today : ℤ) (a : AllAssets) : List (ℤ × ℚ) :=
  a.epf.foldr
    (fun acc rest =>
      epfOpeningEntries acc ++
        (if 0 < acc.current_balance then [(today, acc.current_balance)] else [])
        ++ rest) []

/-- The opening-balance outflow of one NPS account (net_worth.py lines
400-406). -/
def npsOpeningEntries (acc : NPS) : List (ℤ × ℚ) :=
  if 0 < acc.opening_balance then
    [((acc.opening_date.getD defaultOpeningDate), -acc.opening_balance)]
  else []

/-- `nps_flows` (net_worth.py lines 398-412): opening outflows plus, per
account, the positive current value dated today (falling back to the
current balance). -/
def nps_flows (today : ℤ) (a : AllAssets) : List (ℤ × ℚ) :=
  a.nps.foldr
    (fun acc rest =>
      npsOpeningEntries acc ++
        (if 0 < acc.current_value then [(today, acc.current_value)]
         else if 0 < acc.current_balance then [(today, acc.current_balance)]
         else [])
        ++ rest) []

/-- `all_cash_flows` as built by `calculate_unified_portfolio_xirr`
(net_worth.py lines 305-406): the same per-type loops, but per-type
current-value entries other than the stock one are never appended to it. -/
def allCashFlows (today : ℤ) (a : AllAssets) : List (ℤ × ℚ) :=
  stock_flows today a
    ++ mfTxnFlows a.mutual_funds
    ++ a.fixed_deposits.foldr (fun fd acc => fdAllEntries today fd ++ acc) []
    ++ a.epf.foldr (fun acc rest => epfOpeningEntries acc ++ rest) []
    ++ a.nps.foldr (fun acc rest => npsOpeningEntries acc ++ rest) []

/-- `all_cash_flows_filtered` with the synthetic net-worth inflow appended
(net_worth.py lines 419-428): every today-dated entry is dropped, then a
single `(today, net_worth['total'])` inflow is appended when the total is
positive. -/
def finalFlows (today : ℤ) (a : AllAssets) : List (ℤ × ℚ) :=
  ((allCashFlows today a).filter (fun f => f.1 ≠ today)) ++
    (if 0 < netWorthTotal today a then [(today, netWorthTotal today a)] else [])

/-- `overall_xirr` (net_worth.py line 430): one solver run over the
combined stream, `None` when fewer than two flows remain. -/
def overallPortfolioXirr (pw : ℚ → ℚ → ℚ) (today : ℤ) (a : AllAssets) :
    Option ℚ :=
  if 2 ≤ (finalFlows today a).length then xirr pw (finalFlows today a) else none

end InvMgr

namespace InvMgr

/-- Greedy front-first consumption plan of a sale, from the
specification's words: the earliest remaining lot(s) are consumed first,
each lot up to its remaining quantity, until the sale quantity is
exhausted.  Entry `i` is the quantity taken from lot `i`. -/
def fifoPlan : ℚ → List Lot → List ℚ
  | _, [] => []
  | toSell, (_, q, _) :: rest =>
    if toSell ≤ 0 then []
    else if q ≤ toSell then q :: fifoPlan (toSell - q) rest
    else [toSell]

/-- Realized P&L a consumption plan prescribes: each consumed quantity is
priced against its own lot's unit cost. -/
def planPnl (price : ℚ) (lots : List Lot) (plan : List ℚ) : ℚ :=
  ((lots.zip plan).map (fun x => (price - x.1.2.2) * x.2)).sum

/-- Cost basis a consumption plan prescribes. -/
def planCost (lots : List Lot) (plan : List ℚ) : ℚ :=
  ((lots.zip plan).map (fun x => x.1.2.2 * x.2)).sum

/-- The HoldingSnapshot invariant of the specification for one stock
bucket: quantity and invested amount agree with the open lots. -/
def InvHolding (h : Holding) : Prop :=
  h.quantity = lotsQty h.lots ∧ h.invested_amount = lotsCost h.lots

/-- The invariant for every bucket of a holdings state. -/
def ledgerInvariant (s : List (String × Holding)) : Prop :=
  ∀ kv ∈ s, InvHolding kv.2

/-- Keys of an association-list state are distinct (Python dict keys). -/
def NodupKeys {β : Type} (s : List (String × β)) : Prop :=
  (s.map (fun kv => kv.1)).Nodup

/-- Total remaining lot quantity of the bucket a transaction resolves to,
at the moment it is processed (`0` for a not-yet-existing bucket). -/
def availableQty (s : List (String × Holding)) (t : Txn) : ℚ :=
  match getEntry s (resolveKey s t) with
  | some h => lotsQty h.lots
  | none => 0

/-- No SELL in the list asks for more than the remaining lot quantity of
its instrument at the time it is processed, starting from state `s`. -/
def sellsOk (s : List (String × Holding)) : List Txn → Prop
  | [] => True
  | t :: ts =>
    (t.transaction_type = "SELL" → t.quantity ≤ availableQty s t) ∧
      sellsOk (processTxn s t) ts

/-- The invariant for one mutual-fund bucket: units and invested amount
agree with the open lots (invested via the lots' remaining `amount`). -/
def InvMFHolding (h : MFHolding) : Prop :=
  h.units = mfLotsUnits h.lots ∧ h.invested_amount = mfLotsAmount h.lots

/-- The invariant for every bucket of a mutual-fund holdings state. -/
def mfLedgerInvariant (s : List (String × MFHolding)) : Prop :=
  ∀ kv ∈ s, InvMFHolding kv.2

/-- Total remaining lot units of the bucket a mutual-fund transaction is
keyed to, at the moment it is processed. -/
def mfAvailableUnits (s : List (String × MFHolding)) (t : MFTxn) : ℚ :=
  match getEntry s (mfKey t) with
  | some h => mfLotsUnits h.lots
  | none => 0

/-- No mutual-fund SELL asks for more units than remain in its scheme's
lots at the time it is processed, starting from state `s`. -/
def mfSellsOk (s : List (String × MFHolding)) : List MFTxn → Prop
  | [] => True
  | t :: ts =>
    (t.transaction_type = "SELL" → t.units ≤ mfAvailableUnits s t) ∧
      mfSellsOk (processMFTxn s t) ts

/-- Signed quantity contribution of one transaction: `+quantity` for a
BUY, `-quantity` for a SELL, `0` otherwise. -/
def signedQty (t : Txn) : ℚ :=
  if t.transaction_type = "BUY" then t.quantity
  else if t.transaction_type = "SELL" then -t.quantity
  else 0

/-- Net quantity over all transactions whose normalized symbol matches
the normalized form of `key`. -/
def netQtyFor (ts : List Txn) (key : String) : ℚ :=
  ((ts.filter
      (fun t => normalize_symbol t.stock_symbol = normalize_symbol key)).map
    signedQty).sum

/-- A stock transaction literal used by the concrete examples. -/
def mkTxn (sym name ty : String) (d : ℤ) (q p : ℚ) : Txn :=
  { stock_symbol := sym, stock_name := name, transaction_type := ty,
    transaction_date := d, quantity := q, price := p }

/-- The FIFO example of the specification: BUY 10@100 on day 1,
BUY 10@200 on day 5, SELL 10@150 on day 10, all on one instrument. -/
def exC1 : List Txn :=
  [mkTxn "STK" "Stock" "BUY" 1 10 100,
   mkTxn "STK" "Stock" "BUY" 5 10 200,
   mkTxn "STK" "Stock" "SELL" 10 10 150]

/-- Suffix-variant merge example: a BUY recorded as `"ABC"` on day 1 and
a BUY recorded as `"ABC.NS"` on day 2. -/
def exC6 : List Txn :=
  [mkTxn "ABC" "Abc Ltd" "BUY" 1 5 10,
   mkTxn "ABC.NS" "Abc Ltd" "BUY" 2 7 10]

/-- The merge example with the dates swapped, so the `"ABC.NS"` variant
is encountered first in chronological order. -/
def exC6r : List Txn :=
  [mkTxn "ABC" "Abc Ltd" "BUY" 2 5 10,
   mkTxn "ABC.NS" "Abc Ltd" "BUY" 1 7 10]

/-- A covered buy-then-partial-sell history used as a concrete instance
of the invariant theorem. -/
def exC2 : List Txn :=
  [mkTxn "A" "N" "BUY" 1 10 100, mkTxn "A" "N" "SELL" 2 4 150]

/-- Asset dictionary with a single savings account, used as a concrete
instance for the unified-XIRR theorem. -/
def exC9 : AllAssets :=
  { stocks := [], mutual_funds := [], fixed_deposits := [], epf := [],
    nps := [], savings := [{ current_balance := 100 }], lending := [],
    other := [] }

/-- Relation between the transactions processed so far and the holdings
state, from the specification's merge description: (1) no two bucket keys
share a normalized symbol (each logical instrument has one bucket);
(2) each bucket is keyed by the literal identifier of the first processed
transaction whose normalized symbol matches it; (3) each bucket's
quantity is the net (BUY minus SELL) quantity over all processed
transactions of its normalized symbol; (4) every processed transaction
has a bucket for its normalized symbol. -/
def mergeInv (done : List Txn) (s : List (String × Holding)) : Prop :=
  ((s.map (fun kv => kv.1)).Pairwise
    (fun a b => normalize_symbol a ≠ normalize_symbol b)) ∧
  (∀ kv ∈ s, (done.find? (fun t =>
      normalize_symbol t.stock_symbol = normalize_symbol kv.1)).map
    (fun t => t.stock_symbol) = some kv.1) ∧
  (∀ kv ∈ s, kv.2.quantity = netQtyFor done kv.1) ∧
  (∀ t ∈ done, ∃ kv ∈ s,
    normalize_symbol kv.1 = normalize_symbol t.stock_symbol)

end InvMgr

namespace InvMgr

theorem sellFifo_eq_plan (price : ℚ) : ∀ (lots : List Lot) (toSell : ℚ),
    (sellFifo price toSell lots).2.1 = planPnl price lots (fifoPlan toSell lots) ∧
    (sellFifo price toSell lots).1 = planCost lots (fifoPlan toSell lots) := by
  intro lots
  induction lots with
  | nil => intro toSell; simp [sellFifo, fifoPlan, planPnl, planCost]
  | cons l rest ih =>
    intro toSell
    obtain ⟨d, q, p⟩ := l
    by_cases h0 : toSell ≤ 0
    · simp [sellFifo, fifoPlan, h0, planPnl, planCost]
    · by_cases h1 : q ≤ toSell
      · have := ih (toSell - q)
        simp [sellFifo, fifoPlan, h0, h1, planPnl, planCost, this.1, this.2,
          mul_comm]
      · simp [sellFifo, fifoPlan, h0, h1, planPnl, planCost, mul_comm]

/-- Claim C1: on the transaction history BUY 10@100 (day 1), BUY 10@200
(day 5), SELL 10@150 (day 10), `calculate_holdings` consumes the earliest
lot first and reports realized_pnl = 500, quantity = 10 and
invested_amount = 2000 for that instrument; and in general the SELL loop
realizes P&L and cost basis exactly according to the greedy front-first
(earliest remaining lot(s) first) consumption plan. -/
theorem claim_C1_fifo_earliest_first :
    (∀ today : ℤ,
      (getEntry (calculate_holdings today exC1) "STK").map
        (fun h => h.realized_pnl) = some 500 ∧
      (getEntry (calculate_holdings today exC1) "STK").map
        (fun h => h.quantity) = some 10 ∧
      (getEntry (calculate_holdings today exC1) "STK").map
        (fun h => h.invested_amount) = some 2000) ∧
    (∀ (price toSell : ℚ) (lots : List Lot),
      (sellFifo price toSell lots).2.1 = planPnl price lots (fifoPlan toSell lots) ∧
      (sellFifo price toSell lots).1 = planCost lots (fifoPlan toSell lots)) := by
  constructor
  · intro today
    norm_num [getEntry, calculate_holdings, processAll, sortTxns, List.insertionSort,
      List.orderedInsert, exC1, mkTxn, processTxn, resolveKey, findExistingKey,
      ensureBucket, emptyHolding, applyTxn, sellFifo, finalizeHolding, normalize_symbol,
      stripSub, upChar, (show ("SELL":String) ≠ "BUY" by decide)]
  · intro price toSell lots
    exact sellFifo_eq_plan price lots toSell

/-- Claim C8: two open lots of 10 units bought 100 and 50 days before
today give a quantity-weighted holding period of 75 days; and the holding
period is 0 for an empty lot queue, for zero total lot quantity, and for
a bucket whose quantity is not positive. -/
theorem claim_C8_holding_period :
    (∀ (today : ℤ) (p1 p2 : ℚ),
      calculate_holding_period_days today
        [(today - 100, 10, p1), (today - 50, 10, p2)] = 75) ∧
    (∀ today : ℤ, calculate_holding_period_days today [] = 0) ∧
    (∀ (today : ℤ) (lots : List Lot), lotsQty lots = 0 →
      calculate_holding_period_days today lots = 0) ∧
    (∀ (today : ℤ) (h : Holding), h.quantity ≤ 0 →
      (finalizeHolding today h).holding_period_days = 0) := by
  refine ⟨?_, ?_, ?_, ?_⟩
  · intro today p1 p2
    have h1 : today - (today - 100) = (100 : ℤ) := by ring
    have h2 : today - (today - 50) = (50 : ℤ) := by ring
    have h3 : ([(today - 100, 10, p1), (today - 50, 10, p2)] : List Lot) ≠ [] := by
      simp
    norm_num [calculate_holding_period_days, lotsQty, h1, h2, pyInt, h3]
  · intro today
    simp [calculate_holding_period_days]
  · intro today lots h
    simp [calculate_holding_period_days, h]
  · intro today h hq
    simp [finalizeHolding, not_lt.mpr hq]

theorem claim_C8_witness :
    calculate_holding_period_days 0 [(3, 2, 5), (9, -2, 7)] = 0 ∧
    (finalizeHolding 0
      { symbol := "S", name := "S", quantity := 0, invested_amount := 0,
        realized_pnl := 0, transactions := [],
        lots := [(1, 4, 2)] }).holding_period_days = 0 :=
  ⟨claim_C8_holding_period.2.2.1 0 [(3, 2, 5), (9, -2, 7)] (by norm_num [lotsQty]),
   claim_C8_holding_period.2.2.2 0 _ (by norm_num)⟩

/-- Claim C7 counterexample: `normalize_symbol` strips the suffix only in
its exact upper-case spelling, because `str.replace` runs before
`str.upper`; the lower-case variant `"abc.ns"` does NOT normalize to the
same key as `"ABC"`, contradicting the claimed case-insensitivity. -/
theorem claim_C7_counterexample :
    normalize_symbol "abc.ns" = "ABC.NS" ∧ normalize_symbol "ABC" = "ABC" ∧
    normalize_symbol "abc.ns" ≠ normalize_symbol "ABC" := by
  refine ⟨by decide, by decide, by decide⟩

/-- Claim C7 (amended): `normalize_symbol` removes every occurrence of
the exact (upper-case) substrings `".NS"` and `".BO"` anywhere in the
symbol — case-sensitively, since the replacement happens before
upper-casing — and then upper-cases the remainder; variants that spell
the suffix in upper case therefore normalize to the same canonical key,
while lower-case suffix spellings are not stripped. -/
theorem claim_C7_amended :
    normalize_symbol "ABC.NS" = "ABC" ∧
    normalize_symbol "ABC.BO" = "ABC" ∧
    normalize_symbol "abc" = "ABC" ∧
    normalize_symbol "ABC" = "ABC" ∧
    normalize_symbol "ABC.NS" = normalize_symbol "ABC" ∧
    normalize_symbol "abc.ns" = "ABC.NS" ∧
    normalize_symbol "A.NSB" = "AB" ∧
    normalize_symbol "" = "" := by
  refine ⟨by decide, by decide, by decide, by decide, by decide, by decide,
    by decide, by decide⟩

/-- Claim C10 counterexample: `parse_zone` splits on EVERY hyphen and
parses the first two pieces, rather than splitting once on the first
hyphen; on `"250-300-400"` the code yields `(250.0, 300.0)` while the
claimed first-split reading would fail to parse `"300-400"` and yield
`(None, None)`. -/
theorem claim_C10_counterexample :
    parse_zone "250-300-400" = (some 250, some 300) ∧
    parse_zone_firstSplit "250-300-400" = (none, none) ∧
    parse_zone "250-300-400" ≠ parse_zone_firstSplit "250-300-400" := by
  refine ⟨?_, ?_, ?_⟩
  · simp +decide [parse_zone, trimWS, isWSChar, splitAllOn, pyFloat, parseUnsigned,
      parseMantissa, splitFirstBy, digitsVal, isDigitChar]
  · simp +decide [parse_zone_firstSplit, trimWS, isWSChar, splitFirstBy, pyFloat,
      parseUnsigned, parseMantissa, digitsVal, isDigitChar]
  · simp +decide [parse_zone, parse_zone_firstSplit, trimWS, isWSChar, splitAllOn,
      pyFloat, parseUnsigned, parseMantissa, splitFirstBy, digitsVal, isDigitChar]

/-- Claim C10 (amended): `parse_zone` is total and never raises; on a
hyphenated input it splits on every hyphen and parses the first two
pieces as decimals, returning `(None, None)` when either fails; on a
single numeric input it returns `(value, value)`; on empty or unparsable
input it returns `(None, None)`; the result always has either both
components present or neither. -/
theorem claim_C10_amended :
    parse_zone "250-300" = (some 250, some 300) ∧
    parse_zone "250" = (some 250, some 250) ∧
    parse_zone "" = (none, none) ∧
    parse_zone "abc" = (none, none) ∧
    parse_zone "250-300-400" = (some 250, some 300) ∧
    (∀ s : String, parse_zone s = (none, none) ∨
      ∃ a b : ℚ, parse_zone s = (some a, some b)) := by
  refine ⟨?_, ?_, ?_, ?_, ?_, ?_⟩
  · simp +decide [parse_zone, trimWS, isWSChar, splitAllOn, pyFloat, parseUnsigned,
      parseMantissa, splitFirstBy, digitsVal, isDigitChar]
  · simp +decide [parse_zone, trimWS, isWSChar, splitAllOn, pyFloat, parseUnsigned,
      parseMantissa, splitFirstBy, digitsVal, isDigitChar]
  · simp [parse_zone]
  · simp +decide [parse_zone, trimWS, isWSChar, splitAllOn, pyFloat, parseUnsigned,
      parseMantissa, splitFirstBy, digitsVal, isDigitChar]
  · simp +decide [parse_zone, trimWS, isWSChar, splitAllOn, pyFloat, parseUnsigned,
      parseMantissa, splitFirstBy, digitsVal, isDigitChar]
  · intro s
    unfold parse_zone
    split
    · exact Or.inl rfl
    · split
      · split
        · split
          · exact Or.inr ⟨_, _, rfl⟩
          · exact Or.inl rfl
        · exact Or.inl rfl
      · split
        · exact Or.inr ⟨_, _, rfl⟩
        · exact Or.inl rfl

end InvMgr

namespace InvMgr

theorem find?_map_key {β : Type} (s : List (String × β)) (k : String)
    (f : β → β) :
    (s.map (fun kv => if kv.1 = k then (kv.1, f kv.2) else kv)).find?
        (fun kv => kv.1 = k)
      = (s.find? (fun kv => kv.1 = k)).map
          (fun kv => if kv.1 = k then (kv.1, f kv.2) else kv) := by
  induction s with
  | nil => rfl
  | cons kv rest ih =>
    by_cases h : kv.1 = k
    · simp [List.find?_cons, h]
    · simp [List.find?_cons, h, ih]

theorem getEntry_processTxn_resolved (s : List (String × Holding)) (t : Txn)
    (h : Holding) (hb : getEntry s (resolveKey s t) = some h) :
    getEntry (processTxn s t) (resolveKey s t) = some (applyTxn h t) := by
  obtain ⟨kv0, hfind, hkv0⟩ := Option.map_eq_some'.mp hb
  have hkey : kv0.1 = resolveKey s t := by
    have := List.find?_some hfind
    simpa using this
  unfold processTxn ensureBucket
  rw [show (s.find? (fun kv => kv.1 = resolveKey s t)).isSome = true by
    rw [hfind]; rfl]
  simp only [if_true]
  unfold getEntry
  rw [find?_map_key s (resolveKey s t) (fun x => applyTxn x t), hfind]
  simp [hkey, hkv0]

theorem lotsQty_nonneg (lots : List Lot) (h : ∀ l ∈ lots, 0 ≤ l.2.1) :
    0 ≤ lotsQty lots := by
  induction lots with
  | nil => simp [lotsQty]
  | cons l rest ih =>
    have h1 := h l (List.mem_cons_self _ _)
    have h2 := ih (fun x hx => h x (List.mem_cons_of_mem _ hx))
    simp only [lotsQty, List.map_cons, List.sum_cons]
    have : (0:ℚ) ≤ (rest.map (fun l => l.2.1)).sum := h2
    linarith

theorem sellFifo_oversell (price : ℚ) : ∀ (lots : List Lot) (toSell : ℚ),
    (∀ l ∈ lots, 0 ≤ l.2.1) → lotsQty lots < toSell →
    sellFifo price toSell lots =
      (lotsCost lots, (lots.map (fun l => (price - l.2.2) * l.2.1)).sum,
        [], toSell - lotsQty lots) := by
  intro lots
  induction lots with
  | nil =>
    intro toSell _ _
    simp [sellFifo, lotsCost, lotsQty]
  | cons l rest ih =>
    intro toSell hnn hover
    obtain ⟨d, q, p⟩ := l
    have hq : 0 ≤ q := by simpa using hnn (d, q, p) (List.mem_cons_self _ _)
    have hrest : ∀ x ∈ rest, 0 ≤ x.2.1 :=
      fun x hx => hnn x (List.mem_cons_of_mem _ hx)
    have hsumr : 0 ≤ lotsQty rest := lotsQty_nonneg rest hrest
    have hsum : lotsQty ((d, q, p) :: rest) = q + lotsQty rest := by
      simp [lotsQty]
    have h0 : ¬ toSell ≤ 0 := by rw [hsum] at hover; push_neg; linarith
    have h1 : q ≤ toSell := by rw [hsum] at hover; linarith
    have hover2 : lotsQty rest < toSell - q := by rw [hsum] at hover; linarith
    have := ih (toSell - q) hrest hover2
    simp only [sellFifo, if_neg h0, if_pos h1, this, Prod.mk.injEq, lotsCost,
      List.map_cons, List.sum_cons, true_and, and_true]
    rw [hsum]
    ring

/-- Claim C3: when a SELL's quantity exceeds the instrument's total
remaining lot quantity, `calculate_holdings` raises no error (the
embedding is a total function): the FIFO loop exhausts all lots, the
bucket's quantity goes negative (not clamped to zero), and the invested
amount is reduced exactly by the cost basis of the lots actually
consumed (here: all of them).  The lots are assumed to have nonnegative
quantities, as lots created from the spec's domain of positive BUY
quantities do, and the bucket is assumed to satisfy the ledger invariant
`quantity = sum of remaining lot quantities`. -/
theorem claim_C3_oversell_negative (s : List (String × Holding)) (t : Txn)
    (h : Holding)
    (hty : t.transaction_type = "SELL")
    (hb : getEntry s (resolveKey s t) = some h)
    (hinv : h.quantity = lotsQty h.lots)
    (hnn : ∀ l ∈ h.lots, 0 ≤ l.2.1)
    (hover : lotsQty h.lots < t.quantity) :
    ∃ h', getEntry (processTxn s t) (resolveKey s t) = some h' ∧
      h'.quantity = h.quantity - t.quantity ∧
      h'.quantity < 0 ∧
      h'.lots = [] ∧
      h'.invested_amount = h.invested_amount - lotsCost h.lots := by
  refine ⟨applyTxn h t, getEntry_processTxn_resolved s t h hb, ?_, ?_, ?_, ?_⟩
  · simp [applyTxn, hty, (show ("SELL":String) ≠ "BUY" from by decide)]
  · have : h.quantity - t.quantity < 0 := by rw [hinv]; linarith
    simpa [applyTxn, hty, (show ("SELL":String) ≠ "BUY" from by decide)]
      using this
  · simp [applyTxn, hty, (show ("SELL":String) ≠ "BUY" from by decide),
      sellFifo_oversell t.price h.lots t.quantity hnn hover]
  · simp [applyTxn, hty, (show ("SELL":String) ≠ "BUY" from by decide),
      sellFifo_oversell t.price h.lots t.quantity hnn hover]

end InvMgr

namespace InvMgr

theorem claim_C3_witness :
    ∃ h', getEntry (processTxn
        [("A", { symbol := "A", name := "N", quantity := 5, invested_amount := 50,
                 realized_pnl := 0, transactions := [], lots := [(0, 5, 10)] })]
        (mkTxn "A" "N" "SELL" 1 8 20))
      (resolveKey
        [("A", { symbol := "A", name := "N", quantity := 5, invested_amount := 50,
                 realized_pnl := 0, transactions := [], lots := [(0, 5, 10)] })]
        (mkTxn "A" "N" "SELL" 1 8 20)) = some h' ∧
      h'.quantity = (5 : ℚ) - 8 ∧
      h'.quantity < 0 ∧
      h'.lots = [] ∧
      h'.invested_amount = (50 : ℚ) - lotsCost [(0, 5, 10)] :=
  claim_C3_oversell_negative
    [("A", { symbol := "A", name := "N", quantity := 5, invested_amount := 50,
             realized_pnl := 0, transactions := [], lots := [(0, 5, 10)] })]
    (mkTxn "A" "N" "SELL" 1 8 20)
    { symbol := "A", name := "N", quantity := 5, invested_amount := 50,
      realized_pnl := 0, transactions := [], lots := [(0, 5, 10)] }
    rfl
    (by simp +decide [getEntry, resolveKey, findExistingKey, normalize_symbol,
      stripSub, upChar, mkTxn, List.find?])
    (by norm_num [lotsQty])
    (by norm_num)
    (by norm_num [lotsQty, mkTxn])

end InvMgr

namespace InvMgr

theorem clampRate_ge (r : ℚ) : -(99 / 100 : ℚ) ≤ clampRate r := by
  unfold clampRate
  split
  · norm_num
  · next h => push_neg at h; linarith

theorem ratesFrom_ge (pw : ℚ → ℚ → ℚ) (flows : List (ℤ × ℚ)) (guess : ℚ)
    (hg : -(99 / 100 : ℚ) ≤ guess) :
    ∀ n, -(99 / 100 : ℚ) ≤ ratesFrom pw flows guess n := by
  intro n
  induction n with
  | zero => exact hg
  | succ n ih =>
    show -(99 / 100 : ℚ) ≤ nextRate pw flows (ratesFrom pw flows guess n)
    unfold nextRate
    split
    · exact ih
    · exact clampRate_ge _

/-- Claim C5: starting from the default guess 0.10, every Newton-Raphson
iterate of `xirr` stays at or above -0.99 (so the base `1 + rate` of the
power computation is at least 0.01 and strictly positive), and the
division step is guarded: whenever the derivative is zero at a
non-converged rate, the loop returns `None` instead of evaluating the
update, for any power model `pw`. -/
theorem claim_C5_rate_clamped (pw : ℚ → ℚ → ℚ) (fs : List (ℤ × ℚ)) :
    (∀ n : ℕ, -(99 / 100 : ℚ) ≤ xirrRateAt pw fs n ∧
      (1 : ℚ) / 100 ≤ 1 + xirrRateAt pw fs n ∧ (0 : ℚ) < 1 + xirrRateAt pw fs n) ∧
    (∀ (r : ℚ) (fuel : ℕ), (npvD pw (prepFlows fs) r).2 = 0 →
      ¬ convergedAt pw (prepFlows fs) r →
      newtonLoop pw (prepFlows fs) r (fuel + 1) = none) := by
  constructor
  · intro n
    have h := ratesFrom_ge pw (prepFlows fs) (1 / 10) (by norm_num) n
    refine ⟨h, by unfold xirrRateAt; linarith, by unfold xirrRateAt; linarith⟩
  · intro r fuel hd hc
    unfold convergedAt at hc
    show (if |(npvD pw (prepFlows fs) r).1| < xirrTol then some r
      else if (npvD pw (prepFlows fs) r).2 = 0 then none
      else newtonLoop pw (prepFlows fs)
        (clampRate (r - (npvD pw (prepFlows fs) r).1 /
          (npvD pw (prepFlows fs) r).2)) fuel) = none
    rw [if_neg hc, if_pos hd]

theorem claim_C5_witness :
    -(99 / 100 : ℚ) ≤ xirrRateAt (fun _ _ => 1) [(0, 1), (1, -1)] 3 ∧
    newtonLoop (fun _ _ => 1) (prepFlows [((0 : ℤ), (1 : ℚ))]) (1 / 10) 1 = none :=
  ⟨((claim_C5_rate_clamped (fun _ _ => 1) [(0, 1), (1, -1)]).1 3).1,
   (claim_C5_rate_clamped (fun _ _ => 1) [((0 : ℤ), (1 : ℚ))]).2 (1 / 10) 0
     (by norm_num [npvD, prepFlows, sortFlows, List.insertionSort])
     (by norm_num [convergedAt, npvD, prepFlows, sortFlows, List.insertionSort,
       xirrTol])⟩

end InvMgr

namespace InvMgr

theorem ratesFrom_succ (pw : ℚ → ℚ → ℚ) (flows : List (ℤ × ℚ)) (g : ℚ) :
    ∀ n, ratesFrom pw flows g (n + 1) =
      ratesFrom pw flows (nextRate pw flows g) n := by
  intro n
  induction n with
  | zero => rfl
  | succ n ih =>
    show nextRate pw flows (ratesFrom pw flows g (n + 1)) =
      nextRate pw flows (ratesFrom pw flows (nextRate pw flows g) n)
    rw [ih]

theorem ratesFrom_stall (pw : ℚ → ℚ → ℚ) (flows : List (ℤ × ℚ)) (g : ℚ)
    (n : ℕ) (hd : (npvD pw flows (ratesFrom pw flows g n)).2 = 0) :
    ∀ k, n ≤ k → ratesFrom pw flows g k = ratesFrom pw flows g n := by
  intro k hk
  induction k, hk using Nat.le_induction with
  | base => rfl
  | succ k hk ih =>
    show nextRate pw flows (ratesFrom pw flows g k) = ratesFrom pw flows g n
    rw [ih]
    unfold nextRate
    rw [if_pos hd]

theorem newtonLoop_succ (pw : ℚ → ℚ → ℚ) (flows : List (ℤ × ℚ))
    (r : ℚ) (fuel : ℕ) :
    newtonLoop pw flows r (fuel + 1) =
      if |(npvD pw flows r).1| < xirrTol then some r
      else if (npvD pw flows r).2 = 0 then none
      else
        newtonLoop pw flows
          (clampRate (r - (npvD pw flows r).1 / (npvD pw flows r).2)) fuel := by
  rfl

theorem newtonLoop_none_iff (pw : ℚ → ℚ → ℚ) (flows : List (ℤ × ℚ)) :
    ∀ (fuel : ℕ) (g : ℚ),
      newtonLoop pw flows g fuel = none ↔
        ∀ n < fuel, ¬ convergedAt pw flows (ratesFrom pw flows g n) := by
  intro fuel
  induction fuel with
  | zero => intro g; simp [newtonLoop]
  | succ fuel ih =>
    intro g
    by_cases hc : |(npvD pw flows g).1| < xirrTol
    · rw [show newtonLoop pw flows g (fuel + 1) = some g by
        rw [newtonLoop_succ, if_pos hc]]
      constructor
      · intro h; cases h
      · intro h
        exact absurd hc (by simpa [convergedAt, ratesFrom] using h 0 (by omega))
    · by_cases hd : (npvD pw flows g).2 = 0
      · rw [show newtonLoop pw flows g (fuel + 1) = none by
          rw [newtonLoop_succ, if_neg hc, if_pos hd]]
        constructor
        · intro _ n _
          have hstall := ratesFrom_stall pw flows g 0
            (by simpa [ratesFrom] using hd) n (Nat.zero_le n)
          simpa [convergedAt, hstall, ratesFrom] using hc
        · intro _; rfl
      · have hnr : nextRate pw flows g =
            clampRate (g - (npvD pw flows g).1 / (npvD pw flows g).2) := by
          unfold nextRate; rw [if_neg hd]
        rw [show newtonLoop pw flows g (fuel + 1) =
            newtonLoop pw flows (nextRate pw flows g) fuel by
          rw [newtonLoop_succ, if_neg hc, if_neg hd, hnr]]
        rw [ih (nextRate pw flows g)]
        constructor
        · intro h n hn
          cases n with
          | zero => simpa [convergedAt, ratesFrom] using hc
          | succ n =>
            rw [ratesFrom_succ]
            exact h n (by omega)
        · intro h n hn
          rw [← ratesFrom_succ]
          exact h (n + 1) (by omega)

theorem newtonLoop_some_char (pw : ℚ → ℚ → ℚ) (flows : List (ℤ × ℚ)) :
    ∀ (fuel : ℕ) (g r : ℚ),
      newtonLoop pw flows g fuel = some r →
        ∃ n < fuel, convergedAt pw flows (ratesFrom pw flows g n) ∧
          (∀ m < n, ¬ convergedAt pw flows (ratesFrom pw flows g m)) ∧
          r = ratesFrom pw flows g n := by
  intro fuel
  induction fuel with
  | zero => intro g r h; cases h
  | succ fuel ih =>
    intro g r h
    by_cases hc : |(npvD pw flows g).1| < xirrTol
    · rw [show newtonLoop pw flows g (fuel + 1) = some g by
        rw [newtonLoop_succ, if_pos hc]] at h
      refine ⟨0, by omega, by simpa [convergedAt, ratesFrom] using hc,
        fun m hm => absurd hm (Nat.not_lt_zero m), ?_⟩
      cases h; rfl
    · by_cases hd : (npvD pw flows g).2 = 0
      · rw [show newtonLoop pw flows g (fuel + 1) = none by
          rw [newtonLoop_succ, if_neg hc, if_pos hd]] at h
        cases h
      · have hnr : nextRate pw flows g =
            clampRate (g - (npvD pw flows g).1 / (npvD pw flows g).2) := by
          unfold nextRate; rw [if_neg hd]
        rw [show newtonLoop pw flows g (fuel + 1) =
            newtonLoop pw flows (nextRate pw flows g) fuel by
          rw [newtonLoop_succ, if_neg hc, if_neg hd, hnr]] at h
        obtain ⟨n, hn, hconv, hmin, hr⟩ := ih (nextRate pw flows g) r h
        refine ⟨n + 1, by omega, ?_, ?_, ?_⟩
        · rw [ratesFrom_succ]; exact hconv
        · intro m hm
          cases m with
          | zero => simpa [convergedAt, ratesFrom] using hc
          | succ m =>
            rw [ratesFrom_succ]
            exact hmin m (by omega)
        · rw [ratesFrom_succ]; exact hr

end InvMgr

namespace InvMgr

theorem dedup_length_lt_two_iff (s : List ℤ)
    (hall : ∀ x ∈ s, x = 1 ∨ x = -1) :
    s.dedup.length < 2 ↔ ¬ ((1 : ℤ) ∈ s ∧ (-1 : ℤ) ∈ s) := by
  constructor
  · intro hlen hmem
    obtain ⟨h1, h2⟩ := hmem
    have h1d : (1 : ℤ) ∈ s.dedup := List.mem_dedup.mpr h1
    have h2d : (-1 : ℤ) ∈ s.dedup := List.mem_dedup.mpr h2
    cases hd : s.dedup with
    | nil => rw [hd] at h1d; cases h1d
    | cons a l =>
      cases l with
      | nil =>
        rw [hd] at h1d h2d
        simp at h1d h2d
        omega
      | cons b l2 => rw [hd] at hlen; simp at hlen; omega
  · intro hne
    by_contra hlen
    push_neg at hlen
    cases hd : s.dedup with
    | nil => rw [hd] at hlen; simp at hlen
    | cons a l =>
      cases l with
      | nil => rw [hd] at hlen; simp at hlen
      | cons b l2 =>
        have hnd := s.nodup_dedup
        rw [hd] at hnd
        have hab : a ≠ b := by
          intro hab
          exact (List.nodup_cons.mp hnd).1 (hab ▸ List.mem_cons_self _ _)
        have ha : a ∈ s := List.mem_dedup.mp (hd ▸ List.mem_cons_self _ _)
        have hb : b ∈ s := List.mem_dedup.mp
          (hd ▸ List.mem_cons_of_mem _ (List.mem_cons_self _ _))
        rcases hall a ha with ha1 | ha1 <;> rcases hall b hb with hb1 | hb1
        · exact hab (ha1.trans hb1.symm)
        · exact hne ⟨ha1 ▸ ha, hb1 ▸ hb⟩
        · exact hne ⟨hb1 ▸ hb, ha1 ▸ ha⟩
        · exact hab (ha1.trans hb1.symm)

theorem one_mem_signsList (l : List (ℤ × ℚ)) :
    (1 : ℤ) ∈ signsList l ↔ ∃ f ∈ l, 0 < f.2 := by
  unfold signsList
  simp only [List.mem_map, List.mem_filter]
  constructor
  · rintro ⟨a, ⟨ha, _⟩, hg⟩
    refine ⟨a, ha, ?_⟩
    by_contra hpos
    rw [if_neg hpos] at hg
    omega
  · rintro ⟨a, ha, hpos⟩
    exact ⟨a, ⟨ha, by simp [ne_of_gt hpos]⟩, by rw [if_pos hpos]⟩

theorem neg_one_mem_signsList (l : List (ℤ × ℚ)) :
    (-1 : ℤ) ∈ signsList l ↔ ∃ f ∈ l, f.2 < 0 := by
  unfold signsList
  simp only [List.mem_map, List.mem_filter]
  constructor
  · rintro ⟨a, ⟨ha, hne⟩, hg⟩
    refine ⟨a, ha, ?_⟩
    by_cases hpos : 0 < a.2
    · rw [if_pos hpos] at hg; omega
    · push_neg at hpos
      have : a.2 ≠ 0 := by simpa using hne
      exact lt_of_le_of_ne hpos this
  · rintro ⟨a, ha, hneg⟩
    exact ⟨a, ⟨ha, by simp [ne_of_lt hneg]⟩, by rw [if_neg (by linarith)]⟩

theorem signs_cond (fs : List (ℤ × ℚ)) :
    (signsList (sortFlows fs)).dedup.length < 2 ↔
      ¬ ((∃ f ∈ fs, 0 < f.2) ∧ (∃ f ∈ fs, f.2 < 0)) := by
  have hperm : ∀ f, f ∈ sortFlows fs ↔ f ∈ fs := fun f =>
    (List.perm_insertionSort (fun a b => a.1 ≤ b.1) fs).mem_iff
  have hall : ∀ x ∈ signsList (sortFlows fs), x = 1 ∨ x = -1 := by
    intro x hx
    unfold signsList at hx
    simp only [List.mem_map, List.mem_filter] at hx
    obtain ⟨a, _, hg⟩ := hx
    by_cases hpos : 0 < a.2
    · rw [if_pos hpos] at hg; omega
    · rw [if_neg hpos] at hg; omega
  rw [dedup_length_lt_two_iff _ hall, one_mem_signsList, neg_one_mem_signsList]
  constructor
  · intro h hx
    exact h ⟨(hx.1.imp fun f hf => ⟨(hperm f).mpr hf.1, hf.2⟩),
      (hx.2.imp fun f hf => ⟨(hperm f).mpr hf.1, hf.2⟩)⟩
  · intro h hx
    exact h ⟨(hx.1.imp fun f hf => ⟨(hperm f).mp hf.1, hf.2⟩),
      (hx.2.imp fun f hf => ⟨(hperm f).mp hf.1, hf.2⟩)⟩

/-- Claim C4: for any cash-flow list and any power model, `xirr` returns
`None` exactly when the list has fewer than two flows, or all non-zero
amounts share one sign, or the NPV derivative is exactly zero at an
iterate before any convergence, or the 100 iterations pass without
`|NPV| < 1e-6`; and whenever it returns a rate, that rate is the first
iterate at which `|NPV| < 1e-6` was reached.  (The embedding is total,
so no exception can be raised.) -/
theorem claim_C4_xirr_none_exactly (pw : ℚ → ℚ → ℚ) (fs : List (ℤ × ℚ)) :
    (xirr pw fs = none ↔
      fs.length < 2 ∨
      ¬ ((∃ f ∈ fs, 0 < f.2) ∧ (∃ f ∈ fs, f.2 < 0)) ∨
      (∃ n < 100, (npvD pw (prepFlows fs) (xirrRateAt pw fs n)).2 = 0 ∧
        ∀ m ≤ n, ¬ convergedAt pw (prepFlows fs) (xirrRateAt pw fs m)) ∨
      (∀ n < 100, ¬ convergedAt pw (prepFlows fs) (xirrRateAt pw fs n))) ∧
    (∀ r, xirr pw fs = some r →
      ∃ n < 100, convergedAt pw (prepFlows fs) (xirrRateAt pw fs n) ∧
        (∀ m < n, ¬ convergedAt pw (prepFlows fs) (xirrRateAt pw fs m)) ∧
        r = xirrRateAt pw fs n) := by
  constructor
  · by_cases hlen : fs.length < 2
    · have hx : xirr pw fs = none := by rw [xirr, if_pos hlen]
      rw [hx]
      exact ⟨fun _ => Or.inl hlen, fun _ => rfl⟩
    · by_cases hsig : (signsList (sortFlows fs)).dedup.length < 2
      · have hx : xirr pw fs = none := by
          rw [xirr, if_neg hlen, if_pos hsig]
        rw [hx]
        exact ⟨fun _ => Or.inr (Or.inl ((signs_cond fs).mp hsig)), fun _ => rfl⟩
      · have hx : xirr pw fs = newtonLoop pw (prepFlows fs) (1 / 10) 100 := by
          rw [xirr, if_neg hlen, if_neg hsig]
        rw [hx, newtonLoop_none_iff]
        constructor
        · intro h
          exact Or.inr (Or.inr (Or.inr h))
        · rintro (h | h | ⟨n, _, hd, hmc⟩ | h)
          · exact absurd h hlen
          · exact absurd ((signs_cond fs).mpr h) hsig
          · intro k hk
            by_cases hkn : k ≤ n
            · exact hmc k hkn
            · push_neg at hkn
              have hstall := ratesFrom_stall pw (prepFlows fs) (1 / 10) n hd k
                (le_of_lt hkn)
              show ¬ convergedAt pw (prepFlows fs)
                (ratesFrom pw (prepFlows fs) (1 / 10) k)
              rw [hstall]
              exact hmc n le_rfl
          · exact h
  · intro r hr
    by_cases hlen : fs.length < 2
    · rw [xirr, if_pos hlen] at hr; cases hr
    · by_cases hsig : (signsList (sortFlows fs)).dedup.length < 2
      · rw [xirr, if_neg hlen, if_pos hsig] at hr; cases hr
      · rw [xirr, if_neg hlen, if_neg hsig] at hr
        exact newtonLoop_some_char pw (prepFlows fs) 100 (1 / 10) r hr

theorem claim_C4_witness :
    xirr (fun _ _ => 1) [((0 : ℤ), (-5 : ℚ)), ((3 : ℤ), (-7 : ℚ))] = none :=
  (claim_C4_xirr_none_exactly (fun _ _ => 1)
      [((0 : ℤ), (-5 : ℚ)), ((3 : ℤ), (-7 : ℚ))]).1.mpr
    (Or.inr (Or.inl (by rintro ⟨⟨f, hf, hpos⟩, -⟩; simp at hf; rcases hf with h | h <;> rw [h] at hpos <;> norm_num at hpos)))

end InvMgr

namespace InvMgr

theorem nodupKeys_append_new {β : Type} (s : List (String × β)) (k : String)
    (b : β) (hnd : NodupKeys s)
    (hfind : s.find? (fun kv => kv.1 = k) = none) :
    NodupKeys (s ++ [(k, b)]) := by
  unfold NodupKeys at *
  rw [List.map_append, List.nodup_append]
  refine ⟨hnd, List.nodup_singleton _, ?_⟩
  intro x hx hx2
  simp at hx2
  subst hx2
  obtain ⟨kv, hkv, hkvk⟩ := List.mem_map.mp hx
  have := List.find?_eq_none.mp hfind kv hkv
  simp [hkvk] at this

theorem keys_map_upd {β : Type} (s : List (String × β)) (k : String)
    (f : β → β) :
    (s.map (fun kv => if kv.1 = k then (kv.1, f kv.2) else kv)).map
        (fun kv => kv.1) = s.map (fun kv => kv.1) := by
  rw [List.map_map]
  refine List.map_congr_left ?_
  intro kv _
  by_cases h : kv.1 = k <;> simp [h]

theorem nodupKeys_map_upd {β : Type} (s : List (String × β)) (k : String)
    (f : β → β) (hnd : NodupKeys s) :
    NodupKeys (s.map (fun kv => if kv.1 = k then (kv.1, f kv.2) else kv)) := by
  unfold NodupKeys at *
  rw [keys_map_upd]
  exact hnd

theorem getEntry_of_mem {β : Type} (s : List (String × β)) (kv : String × β)
    (hmem : kv ∈ s) (hnd : NodupKeys s) : getEntry s kv.1 = some kv.2 := by
  induction s with
  | nil => cases hmem
  | cons a rest ih =>
    rcases List.mem_cons.mp hmem with h | h
    · subst h
      simp [getEntry, List.find?_cons]
    · have hnd' : NodupKeys rest := by
        unfold NodupKeys at hnd ⊢
        exact (List.nodup_cons.mp hnd).2
      by_cases hk : a.1 = kv.1
      · exfalso
        have hmem2 : kv.1 ∈ rest.map (fun kv => kv.1) :=
          List.mem_map.mpr ⟨kv, h, rfl⟩
        unfold NodupKeys at hnd
        rw [← hk] at hmem2
        exact (List.nodup_cons.mp hnd).1 hmem2
      · rw [getEntry] at *
        rw [List.find?_cons_of_neg _ (by simpa using hk)]
        exact ih h hnd'

theorem lots_append_qty (l : List Lot) (x : Lot) :
    lotsQty (l ++ [x]) = lotsQty l + x.2.1 := by
  simp [lotsQty]

theorem lots_append_cost (l : List Lot) (x : Lot) :
    lotsCost (l ++ [x]) = lotsCost l + x.2.1 * x.2.2 := by
  simp [lotsCost]

theorem sellFifo_covered (price : ℚ) : ∀ (lots : List Lot) (toSell : ℚ),
    0 ≤ toSell → toSell ≤ lotsQty lots →
    lotsQty (sellFifo price toSell lots).2.2.1 = lotsQty lots - toSell ∧
    lotsCost (sellFifo price toSell lots).2.2.1 =
      lotsCost lots - (sellFifo price toSell lots).1 := by
  intro lots
  induction lots with
  | nil =>
    intro toSell h0 h1
    have : toSell = 0 := le_antisymm (by simpa [lotsQty] using h1) h0
    subst this
    simp [sellFifo, lotsQty, lotsCost]
  | cons l rest ih =>
    intro toSell h0 h1
    obtain ⟨d, q, p⟩ := l
    have hsum : lotsQty ((d, q, p) :: rest) = q + lotsQty rest := by simp [lotsQty]
    have hcost : lotsCost ((d, q, p) :: rest) = q * p + lotsCost rest := by
      simp [lotsCost]
    by_cases hz : toSell ≤ 0
    · have : toSell = 0 := le_antisymm hz h0
      subst this
      simp [sellFifo]
    · by_cases hq : q ≤ toSell
      · have h0' : 0 ≤ toSell - q := by linarith
        have h1' : toSell - q ≤ lotsQty rest := by rw [hsum] at h1; linarith
        have := ih (toSell - q) h0' h1'
        simp only [sellFifo, if_neg hz, if_pos hq]
        constructor
        · rw [this.1, hsum]; ring
        · rw [this.2, hcost]; ring
      · simp only [sellFifo, if_neg hz, if_neg hq]
        constructor
        · simp [lotsQty, hsum]; ring
        · simp [lotsCost, hcost]; ring

theorem applyTxn_inv (h : Holding) (t : Txn) (hinv : InvHolding h)
    (hqty : 0 ≤ t.quantity)
    (hsell : t.transaction_type = "SELL" → t.quantity ≤ lotsQty h.lots) :
    InvHolding (applyTxn h t) := by
  obtain ⟨hq, hc⟩ := hinv
  unfold applyTxn
  split_ifs with hb hs
  · exact ⟨by simp [lots_append_qty, hq],
      by simp [lots_append_cost, hc]⟩
  · have hcov := sellFifo_covered t.price h.lots t.quantity hqty (hsell hs)
    exact ⟨by simp [hcov.1, hq], by simp [hcov.2, hc]⟩
  · exact ⟨hq, hc⟩

end InvMgr

namespace InvMgr

theorem processTxn_inv (s : List (String × Holding)) (t : Txn)
    (hnd : NodupKeys s) (hin : ledgerInvariant s)
    (hqty : 0 ≤ t.quantity)
    (hsell : t.transaction_type = "SELL" → t.quantity ≤ availableQty s t) :
    NodupKeys (processTxn s t) ∧ ledgerInvariant (processTxn s t) := by
  have hens : NodupKeys (ensureBucket s (resolveKey s t) t) := by
    unfold ensureBucket
    split
    · exact hnd
    · next hf =>
      exact nodupKeys_append_new s _ _ hnd
        (Option.not_isSome_iff_eq_none.mp (by simpa using hf))
  refine ⟨?_, ?_⟩
  · show NodupKeys ((ensureBucket s (resolveKey s t) t).map
      (fun kv => if kv.1 = resolveKey s t then (kv.1, applyTxn kv.2 t) else kv))
    exact nodupKeys_map_upd _ (resolveKey s t) (fun x => applyTxn x t) hens
  intro kv hkv
  unfold processTxn at hkv
  obtain ⟨kv0, hkv0, heq⟩ := List.mem_map.mp hkv
  have hinv0 : InvHolding kv0.2 := by
    unfold ensureBucket at hkv0
    split at hkv0
    · exact hin kv0 hkv0
    · rcases List.mem_append.mp hkv0 with hmem | hmem
      · exact hin kv0 hmem
      · simp at hmem
        rw [hmem]
        exact ⟨by simp [emptyHolding, lotsQty], by simp [emptyHolding, lotsCost]⟩
  by_cases hk0 : kv0.1 = resolveKey s t
  · rw [if_pos hk0] at heq
    rw [← heq]
    refine applyTxn_inv kv0.2 t hinv0 hqty ?_
    intro hty
    have havail := hsell hty
    unfold ensureBucket at hkv0
    split at hkv0
    · next hf =>
      have hget : getEntry s (resolveKey s t) = some kv0.2 := by
        rw [← hk0]
        exact getEntry_of_mem s kv0 hkv0 hnd
      unfold availableQty at havail
      rw [hget] at havail
      exact havail
    · next hf =>
      have hnone : s.find? (fun kv => kv.1 = resolveKey s t) = none :=
        Option.not_isSome_iff_eq_none.mp (by simpa using hf)
      rcases List.mem_append.mp hkv0 with hmem | hmem
      · exfalso
        have := List.find?_eq_none.mp hnone kv0 hmem
        simp [hk0] at this
      · simp at hmem
        have hget : getEntry s (resolveKey s t) = none := by
          unfold getEntry
          rw [hnone]
          rfl
        unfold availableQty at havail
        rw [hget] at havail
        have : t.quantity = 0 := le_antisymm havail hqty
        rw [hmem, this]
        simp [emptyHolding, lotsQty]
  · rw [if_neg hk0] at heq
    rw [← heq]
    exact hinv0

theorem sellsOk_take : ∀ (l : List Txn) (n : ℕ) (s : List (String × Holding)),
    sellsOk s l → sellsOk s (l.take n) := by
  intro l
  induction l with
  | nil => intro n s _; rw [List.take_nil]; trivial
  | cons t ts ih =>
    intro n s h
    cases n with
    | zero => trivial
    | succ n =>
      obtain ⟨h1, h2⟩ := h
      exact ⟨h1, ih n _ h2⟩

theorem foldl_processTxn_inv : ∀ (l : List Txn) (s : List (String × Holding)),
    NodupKeys s → ledgerInvariant s →
    (∀ t ∈ l, 0 ≤ t.quantity) → sellsOk s l →
    NodupKeys (l.foldl processTxn s) ∧
      ledgerInvariant (l.foldl processTxn s) := by
  intro l
  induction l with
  | nil => intro s h1 h2 _ _; exact ⟨h1, h2⟩
  | cons t ts ih =>
    intro s h1 h2 hq hok
    obtain ⟨hok1, hok2⟩ := hok
    have hstep := processTxn_inv s t h1 h2 (hq t (List.mem_cons_self _ _)) hok1
    exact ih (processTxn s t) hstep.1 hstep.2
      (fun x hx => hq x (List.mem_cons_of_mem _ hx)) hok2

end InvMgr

namespace InvMgr

theorem mfSellFifo_covered : ∀ (lots : List MFLot) (toSell : ℚ),
    0 ≤ toSell → toSell ≤ mfLotsUnits lots →
    mfLotsUnits (mfSellFifo toSell lots).2 = mfLotsUnits lots - toSell ∧
    mfLotsAmount (mfSellFifo toSell lots).2 =
      mfLotsAmount lots - (mfSellFifo toSell lots).1 := by
  intro lots
  induction lots with
  | nil =>
    intro toSell h0 h1
    have : toSell = 0 := le_antisymm (by simpa [mfLotsUnits] using h1) h0
    subst this
    simp [mfSellFifo, mfLotsUnits, mfLotsAmount]
  | cons l rest ih =>
    intro toSell h0 h1
    have hsum : mfLotsUnits (l :: rest) = l.units + mfLotsUnits rest := by
      simp [mfLotsUnits]
    have hcost : mfLotsAmount (l :: rest) = l.amount + mfLotsAmount rest := by
      simp [mfLotsAmount]
    by_cases hz : toSell ≤ 0
    · have : toSell = 0 := le_antisymm hz h0
      subst this
      simp [mfSellFifo]
    · by_cases hq : l.units ≤ toSell
      · have h0' : 0 ≤ toSell - l.units := by linarith
        have h1' : toSell - l.units ≤ mfLotsUnits rest := by
          rw [hsum] at h1; linarith
        have := ih (toSell - l.units) h0' h1'
        simp only [mfSellFifo, if_neg hz, if_pos hq]
        constructor
        · rw [this.1, hsum]; ring
        · rw [this.2, hcost]; ring
      · simp only [mfSellFifo, if_neg hz, if_neg hq]
        constructor
        · simp [mfLotsUnits, hsum]; ring
        · simp [mfLotsAmount, hcost]; ring

theorem applyMFTxn_inv (h : MFHolding) (t : MFTxn) (hinv : InvMFHolding h)
    (hqty : 0 ≤ t.units)
    (hsell : t.transaction_type = "SELL" → t.units ≤ mfLotsUnits h.lots) :
    InvMFHolding (applyMFTxn h t) := by
  obtain ⟨hu, hc⟩ := hinv
  unfold applyMFTxn
  split_ifs with hb hs
  · exact ⟨by simp [mfLotsUnits, hu], by simp [mfLotsAmount, hc]⟩
  · have hcov := mfSellFifo_covered h.lots t.units hqty (hsell hs)
    exact ⟨by simp [hcov.1, hu], by simp [hcov.2, hc]⟩
  · exact ⟨hu, hc⟩

theorem processMFTxn_inv (s : List (String × MFHolding)) (t : MFTxn)
    (hnd : NodupKeys s) (hin : mfLedgerInvariant s)
    (hqty : 0 ≤ t.units)
    (hsell : t.transaction_type = "SELL" → t.units ≤ mfAvailableUnits s t) :
    NodupKeys (processMFTxn s t) ∧ mfLedgerInvariant (processMFTxn s t) := by
  have hens : NodupKeys (mfEnsureBucket s t) := by
    unfold mfEnsureBucket
    split
    · exact hnd
    · next hf =>
      exact nodupKeys_append_new s _ _ hnd
        (Option.not_isSome_iff_eq_none.mp (by simpa using hf))
  refine ⟨?_, ?_⟩
  · show NodupKeys ((mfEnsureBucket s t).map
      (fun kv => if kv.1 = mfKey t then (kv.1, applyMFTxn kv.2 t) else kv))
    exact nodupKeys_map_upd _ (mfKey t) (fun x => applyMFTxn x t) hens
  intro kv hkv
  unfold processMFTxn at hkv
  obtain ⟨kv0, hkv0, heq⟩ := List.mem_map.mp hkv
  have hinv0 : InvMFHolding kv0.2 := by
    unfold mfEnsureBucket at hkv0
    split at hkv0
    · exact hin kv0 hkv0
    · rcases List.mem_append.mp hkv0 with hmem | hmem
      · exact hin kv0 hmem
      · simp at hmem
        rw [hmem]
        exact ⟨by simp [emptyMFHolding, mfLotsUnits],
          by simp [emptyMFHolding, mfLotsAmount]⟩
  by_cases hk0 : kv0.1 = mfKey t
  · rw [if_pos hk0] at heq
    rw [← heq]
    refine applyMFTxn_inv kv0.2 t hinv0 hqty ?_
    intro hty
    have havail := hsell hty
    unfold mfEnsureBucket at hkv0
    split at hkv0
    · next hf =>
      have hget : getEntry s (mfKey t) = some kv0.2 := by
        rw [← hk0]
        exact getEntry_of_mem s kv0 hkv0 hnd
      unfold mfAvailableUnits at havail
      rw [hget] at havail
      exact havail
    · next hf =>
      have hnone : s.find? (fun kv => kv.1 = mfKey t) = none :=
        Option.not_isSome_iff_eq_none.mp (by simpa using hf)
      rcases List.mem_append.mp hkv0 with hmem | hmem
      · exfalso
        have := List.find?_eq_none.mp hnone kv0 hmem
        simp [hk0] at this
      · simp at hmem
        have hget : getEntry s (mfKey t) = none := by
          unfold getEntry
          rw [hnone]
          rfl
        unfold mfAvailableUnits at havail
        rw [hget] at havail
        have : t.units = 0 := le_antisymm havail hqty
        rw [hmem, this]
        simp [emptyMFHolding, mfLotsUnits]
  · rw [if_neg hk0] at heq
    rw [← heq]
    exact hinv0

theorem mfSellsOk_take : ∀ (l : List MFTxn) (n : ℕ)
    (s : List (String × MFHolding)),
    mfSellsOk s l → mfSellsOk s (l.take n) := by
  intro l
  induction l with
  | nil => intro n s _; rw [List.take_nil]; trivial
  | cons t ts ih =>
    intro n s h
    cases n with
    | zero => trivial
    | succ n =>
      obtain ⟨h1, h2⟩ := h
      exact ⟨h1, ih n _ h2⟩

theorem foldl_processMFTxn_inv : ∀ (l : List MFTxn)
    (s : List (String × MFHolding)),
    NodupKeys s → mfLedgerInvariant s →
    (∀ t ∈ l, 0 ≤ t.units) → mfSellsOk s l →
    NodupKeys (l.foldl processMFTxn s) ∧
      mfLedgerInvariant (l.foldl processMFTxn s) := by
  intro l
  induction l with
  | nil => intro s h1 h2 _ _; exact ⟨h1, h2⟩
  | cons t ts ih =>
    intro s h1 h2 hq hok
    obtain ⟨hok1, hok2⟩ := hok
    have hstep := processMFTxn_inv s t h1 h2 (hq t (List.mem_cons_self _ _)) hok1
    exact ih (processMFTxn s t) hstep.1 hstep.2
      (fun x hx => hq x (List.mem_cons_of_mem _ hx)) hok2

end InvMgr

namespace InvMgr

/-- Claim C2: for every transaction list (with nonnegative quantities, as
the specification's data model requires) in which no SELL exceeds the
remaining lot quantity of its instrument at the time it is processed,
after each processed transaction every bucket satisfies
`quantity = sum of remaining lot quantities` and
`invested_amount = sum of remaining quantity times unit cost` (for the
mutual-fund ledger, the sum of the lots' remaining `amount` fields), and
both are zero once the lots are exhausted.  The state after `n`
transactions is the fold over the first `n` sorted transactions. -/
theorem claim_C2_invariant :
    (∀ (ts : List Txn) (n : ℕ),
      (∀ t ∈ ts, 0 ≤ t.quantity) →
      sellsOk [] (sortTxns ts) →
      ledgerInvariant (((sortTxns ts).take n).foldl processTxn []) ∧
      ∀ kv ∈ ((sortTxns ts).take n).foldl processTxn [],
        kv.2.lots = [] → kv.2.quantity = 0 ∧ kv.2.invested_amount = 0) ∧
    (∀ (ts : List MFTxn) (n : ℕ),
      (∀ t ∈ ts, 0 ≤ t.units) →
      mfSellsOk [] (sortMFTxns ts) →
      mfLedgerInvariant (((sortMFTxns ts).take n).foldl processMFTxn []) ∧
      ∀ kv ∈ ((sortMFTxns ts).take n).foldl processMFTxn [],
        kv.2.lots = [] → kv.2.units = 0 ∧ kv.2.invested_amount = 0) := by
  constructor
  · intro ts n hq hok
    have hmem : ∀ t ∈ (sortTxns ts).take n, 0 ≤ t.quantity := by
      intro t ht
      have h2 : t ∈ sortTxns ts := List.take_subset n _ ht
      exact hq t ((List.perm_insertionSort _ ts).mem_iff.mp h2)
    have h := foldl_processTxn_inv ((sortTxns ts).take n) []
      (by simp [NodupKeys]) (by intro kv hkv; cases hkv) hmem
      (sellsOk_take _ n [] hok)
    refine ⟨h.2, ?_⟩
    intro kv hkv hl
    obtain ⟨h1, h2⟩ := h.2 kv hkv
    rw [hl] at h1 h2
    exact ⟨by simpa [lotsQty] using h1, by simpa [lotsCost] using h2⟩
  · intro ts n hq hok
    have hmem : ∀ t ∈ (sortMFTxns ts).take n, 0 ≤ t.units := by
      intro t ht
      have h2 : t ∈ sortMFTxns ts := List.take_subset n _ ht
      exact hq t ((List.perm_insertionSort _ ts).mem_iff.mp h2)
    have h := foldl_processMFTxn_inv ((sortMFTxns ts).take n) []
      (by simp [NodupKeys]) (by intro kv hkv; cases hkv) hmem
      (mfSellsOk_take _ n [] hok)
    refine ⟨h.2, ?_⟩
    intro kv hkv hl
    obtain ⟨h1, h2⟩ := h.2 kv hkv
    rw [hl] at h1 h2
    exact ⟨by simpa [mfLotsUnits] using h1, by simpa [mfLotsAmount] using h2⟩

theorem claim_C2_witness :
    ledgerInvariant (((sortTxns exC2).take 2).foldl processTxn []) ∧
    mfLedgerInvariant (((sortMFTxns []).take 0).foldl processMFTxn []) :=
  ⟨(claim_C2_invariant.1 exC2 2
      (by intro t ht; simp [exC2, mkTxn] at ht; rcases ht with h | h <;>
        rw [h] <;> norm_num)
      (by simp +decide [exC2, mkTxn, sortTxns, List.insertionSort,
        List.orderedInsert, sellsOk, availableQty, processTxn, resolveKey,
        findExistingKey, ensureBucket, emptyHolding, applyTxn, getEntry,
        normalize_symbol, stripSub, upChar, lotsQty])).1,
   (claim_C2_invariant.2 [] 0 (by intro t ht; cases ht) trivial).1⟩

end InvMgr

namespace InvMgr

theorem find?_append_some {α : Type} (p : α → Bool) (l₁ l₂ : List α) (a : α)
    (h : l₁.find? p = some a) : (l₁ ++ l₂).find? p = some a := by
  induction l₁ with
  | nil => cases h
  | cons x xs ih =>
    rw [List.cons_append]
    by_cases hx : p x
    · rw [List.find?_cons_of_pos _ hx] at h ⊢; exact h
    · rw [List.find?_cons_of_neg _ hx] at h ⊢; exact ih h

theorem find?_append_none {α : Type} (p : α → Bool) (l₁ l₂ : List α)
    (h : l₁.find? p = none) : (l₁ ++ l₂).find? p = l₂.find? p := by
  induction l₁ with
  | nil => rfl
  | cons x xs ih =>
    rw [List.cons_append]
    by_cases hx : p x
    · rw [List.find?_cons_of_pos _ hx] at h; cases h
    · rw [List.find?_cons_of_neg _ hx] at h ⊢; exact ih h

theorem netQtyFor_append (l₁ l₂ : List Txn) (key : String) :
    netQtyFor (l₁ ++ l₂) key = netQtyFor l₁ key + netQtyFor l₂ key := by
  simp [netQtyFor, List.filter_append]

theorem netQtyFor_single (t : Txn) (key : String) :
    netQtyFor [t] key =
      if normalize_symbol t.stock_symbol = normalize_symbol key
      then signedQty t else 0 := by
  by_cases h : normalize_symbol t.stock_symbol = normalize_symbol key
  · simp [netQtyFor, h]
  · simp [netQtyFor, h]

theorem netQtyFor_zero (done : List Txn) (key : String)
    (h : ∀ t ∈ done,
      normalize_symbol t.stock_symbol ≠ normalize_symbol key) :
    netQtyFor done key = 0 := by
  have hf : done.filter (fun t =>
      normalize_symbol t.stock_symbol = normalize_symbol key) = [] :=
    List.filter_eq_nil_iff.mpr (fun t ht => by simpa using h t ht)
  simp [netQtyFor, hf]

theorem applyTxn_quantity (h : Holding) (t : Txn) :
    (applyTxn h t).quantity = h.quantity + signedQty t := by
  unfold applyTxn signedQty
  split_ifs <;> first
    | (simp; ring)
    | simp

theorem mergeInv_step (done : List Txn) (s : List (String × Holding))
    (t : Txn) (h : mergeInv done s) :
    mergeInv (done ++ [t]) (processTxn s t) := by
  obtain ⟨h1, h2, h3, h4⟩ := h
  by_cases hex : findExistingKey s (normalize_symbol t.stock_symbol) = none
  · -- no bucket with a matching normalized symbol yet: a new one is created
    have hresolve : resolveKey s t = t.stock_symbol := by
      unfold resolveKey; rw [hex]
    have hnomatch : ∀ kv ∈ s,
        normalize_symbol kv.1 ≠ normalize_symbol t.stock_symbol := by
      intro kv hkv heq
      have hn : s.find? (fun kv =>
          normalize_symbol kv.1 = normalize_symbol t.stock_symbol) = none :=
        Option.map_eq_none'.mp hex
      have := List.find?_eq_none.mp hn kv hkv
      simp [heq] at this
    have hfindk : s.find? (fun kv => kv.1 = resolveKey s t) = none := by
      apply List.find?_eq_none.mpr
      intro kv hkv
      simp only [decide_eq_true_eq]
      intro he
      exact hnomatch kv hkv (by rw [he, hresolve])
    have hensure : ensureBucket s (resolveKey s t) t =
        s ++ [(resolveKey s t, emptyHolding (resolveKey s t) t.stock_name)] := by
      unfold ensureBucket
      rw [if_neg (by simp [hfindk])]
    have hmapid : s.map (fun kv =>
        if kv.1 = resolveKey s t then (kv.1, applyTxn kv.2 t) else kv) = s := by
      rw [show s = s.map (fun kv => kv) by simp]
      rw [List.map_map]
      refine List.map_congr_left ?_
      intro kv hkv
      have : ¬ kv.1 = resolveKey s t := by
        intro he
        exact hnomatch kv (by simpa using hkv) (by rw [he, hresolve])
      simp [this]
    have hs' : processTxn s t = s ++
        [(resolveKey s t,
          applyTxn (emptyHolding (resolveKey s t) t.stock_name) t)] := by
      unfold processTxn
      rw [hensure, List.map_append, hmapid]
      simp
    have hdonezero : ∀ t' ∈ done,
        normalize_symbol t'.stock_symbol ≠
          normalize_symbol (resolveKey s t) := by
      intro t' ht' heq
      obtain ⟨kv, hkv, hkveq⟩ := h4 t' ht'
      exact hnomatch kv hkv (by rw [hkveq, heq, hresolve])
    have hfinddone : done.find? (fun t' =>
        normalize_symbol t'.stock_symbol =
          normalize_symbol (resolveKey s t)) = none := by
      apply List.find?_eq_none.mpr
      intro t' ht'
      simpa using hdonezero t' ht'
    refine ⟨?_, ?_, ?_, ?_⟩
    · rw [hs', List.map_append, List.pairwise_append]
      refine ⟨h1, by simp, ?_⟩
      intro a ha b hb
      simp at hb
      obtain ⟨kv, hkv, hkva⟩ := List.mem_map.mp ha
      rw [hb, ← hkva, hresolve]
      exact hnomatch kv hkv
    · rw [hs']
      intro kv hkv
      rcases List.mem_append.mp hkv with hmem | hmem
      · obtain ⟨t₀, hft₀, ht₀⟩ := Option.map_eq_some'.mp (h2 kv hmem)
        rw [find?_append_some _ done [t] t₀ hft₀]
        simp [ht₀]
      · simp at hmem
        rw [hmem]
        rw [find?_append_none _ done [t] hfinddone]
        rw [List.find?_cons_of_pos _ (by simp [hresolve])]
        simp [hresolve]
    · rw [hs']
      intro kv hkv
      rcases List.mem_append.mp hkv with hmem | hmem
      · rw [netQtyFor_append, netQtyFor_single,
          if_neg (hnomatch kv hmem ∘ Eq.symm), h3 kv hmem]
        ring
      · simp at hmem
        rw [hmem]
        rw [netQtyFor_append, netQtyFor_single,
          if_pos (by rw [hresolve]),
          netQtyFor_zero done _ hdonezero,
          applyTxn_quantity]
        simp [emptyHolding]
    · intro t' ht'
      rcases List.mem_append.mp ht' with hmem | hmem
      · obtain ⟨kv, hkv, hkveq⟩ := h4 t' hmem
        exact ⟨kv, by rw [hs']; exact List.mem_append_left _ hkv, hkveq⟩
      · simp at hmem
        rw [hmem]
        refine ⟨(resolveKey s t,
            applyTxn (emptyHolding (resolveKey s t) t.stock_name) t), ?_, ?_⟩
        · rw [hs']
          exact List.mem_append_right _ (List.mem_singleton_self _)
        · simp [hresolve]
  · -- an existing bucket matches: it absorbs the transaction
    rcases hf : s.find? (fun kv =>
        normalize_symbol kv.1 = normalize_symbol t.stock_symbol) with _ | kv₀
    · exact absurd (by unfold findExistingKey; rw [hf]; rfl) hex
    have hk : resolveKey s t = kv₀.1 := by
      unfold resolveKey findExistingKey; rw [hf]; rfl
    have hkv₀mem : kv₀ ∈ s := List.mem_of_find?_eq_some hf
    have hkv₀match : normalize_symbol kv₀.1 =
        normalize_symbol t.stock_symbol := by
      simpa using List.find?_some hf
    have hensure : ensureBucket s (resolveKey s t) t = s := by
      unfold ensureBucket
      rw [if_pos (List.find?_isSome.mpr ⟨kv₀, hkv₀mem, by simp [hk]⟩)]
    have hs' : processTxn s t = s.map (fun kv =>
        if kv.1 = resolveKey s t then (kv.1, applyTxn kv.2 t) else kv) := by
      unfold processTxn
      rw [hensure]
    have hkeys : (processTxn s t).map (fun kv => kv.1) =
        s.map (fun kv => kv.1) := by
      rw [hs']
      exact keys_map_upd s (resolveKey s t) (fun x => applyTxn x t)
    refine ⟨by rw [hkeys]; exact h1, ?_, ?_, ?_⟩
    · rw [hs']
      intro kv' hkv'
      obtain ⟨kv, hkv, hkveq⟩ := List.mem_map.mp hkv'
      have hfst : kv'.1 = kv.1 := by
        rw [← hkveq]; by_cases hc : kv.1 = resolveKey s t <;> simp [hc]
      obtain ⟨t₀, hft₀, ht₀⟩ := Option.map_eq_some'.mp (h2 kv hkv)
      rw [hfst, find?_append_some _ done [t] t₀ hft₀]
      simp [ht₀]
    · rw [hs']
      intro kv' hkv'
      obtain ⟨kv, hkv, hkveq⟩ := List.mem_map.mp hkv'
      by_cases hc : kv.1 = resolveKey s t
      · rw [if_pos hc] at hkveq
        rw [← hkveq]
        simp only
        rw [applyTxn_quantity, netQtyFor_append, netQtyFor_single,
          if_pos (by rw [hc, hk]; exact hkv₀match.symm), h3 kv hkv]
      · rw [if_neg hc] at hkveq
        rw [← hkveq]
        have hne : normalize_symbol t.stock_symbol ≠
            normalize_symbol kv.1 := by
          intro heq
          have hdist : kv.1 ≠ kv₀.1 := by rw [← hk]; exact hc
          have hmem1 : kv.1 ∈ s.map (fun kv => kv.1) :=
            List.mem_map.mpr ⟨kv, hkv, rfl⟩
          have hmem2 : kv₀.1 ∈ s.map (fun kv => kv.1) :=
            List.mem_map.mpr ⟨kv₀, hkv₀mem, rfl⟩
          have hsym : Symmetric (fun a b : String =>
              normalize_symbol a ≠ normalize_symbol b) :=
            fun a b hab => hab ∘ Eq.symm
          exact (h1.forall hsym hmem1 hmem2 hdist)
            (heq ▸ hkv₀match.symm ▸ rfl)
        rw [netQtyFor_append, netQtyFor_single, if_neg hne, h3 kv hkv]
        ring
    · intro t' ht'
      rcases List.mem_append.mp ht' with hmem | hmem
      · obtain ⟨kv, hkv, hkveq⟩ := h4 t' hmem
        refine ⟨(if kv.1 = resolveKey s t then (kv.1, applyTxn kv.2 t)
          else kv), (by rw [hs']; exact List.mem_map.mpr ⟨kv, hkv, rfl⟩), ?_⟩
        by_cases hc : kv.1 = resolveKey s t
        · rw [if_pos hc]
          exact hkveq
        · rw [if_neg hc]
          exact hkveq
      · simp at hmem
        rw [hmem]
        refine ⟨(kv₀.1, applyTxn kv₀.2 t), ?_, by simpa using hkv₀match⟩
        rw [hs']
        exact List.mem_map.mpr ⟨kv₀, hkv₀mem, by rw [if_pos hk.symm]⟩

end InvMgr

namespace InvMgr

theorem mergeInv_nil : mergeInv [] ([] : List (String × Holding)) := by
  unfold mergeInv
  refine ⟨by simp, ?_, ?_, ?_⟩
  · intro kv hkv; cases hkv
  · intro kv hkv; cases hkv
  · intro t ht; cases ht

theorem mergeInv_foldl : ∀ (l done : List Txn) (s : List (String × Holding)),
    mergeInv done s → mergeInv (done ++ l) (l.foldl processTxn s) := by
  intro l
  induction l with
  | nil => intro done s h; simpa using h
  | cons t ts ih =>
    intro done s h
    have := ih (done ++ [t]) (processTxn s t) (mergeInv_step done s t h)
    simpa using this

/-- Claim C6: distinct symbol variants with equal normalized form always
land in a single bucket: in any holdings state produced by
`calculate_holdings` no two bucket keys share a normalized symbol, each
bucket is keyed by the literal identifier of the chronologically first
matching transaction, and each bucket's quantity is the combined net
quantity of all matching transactions; concretely, a BUY under `"ABC"`
and a BUY under `"ABC.NS"` merge into one bucket holding both quantities,
keyed by whichever variant came first. -/
theorem claim_C6_symbol_merge :
    (∀ ts : List Txn,
      ((processAll ts).map (fun kv => kv.1)).Pairwise
        (fun a b => normalize_symbol a ≠ normalize_symbol b) ∧
      (∀ kv ∈ processAll ts,
        ((sortTxns ts).find? (fun t =>
            normalize_symbol t.stock_symbol = normalize_symbol kv.1)).map
          (fun t => t.stock_symbol) = some kv.1) ∧
      (∀ kv ∈ processAll ts, kv.2.quantity = netQtyFor (sortTxns ts) kv.1)) ∧
    (∀ today : ℤ,
      (calculate_holdings today exC6).map (fun kv => kv.1) = ["ABC"] ∧
      (getEntry (calculate_holdings today exC6) "ABC").map
        (fun h => h.quantity) = some 12 ∧
      (calculate_holdings today exC6r).map (fun kv => kv.1) = ["ABC.NS"] ∧
      (getEntry (calculate_holdings today exC6r) "ABC.NS").map
        (fun h => h.quantity) = some 12) := by
  constructor
  · intro ts
    have h := mergeInv_foldl (sortTxns ts) [] [] mergeInv_nil
    rw [List.nil_append] at h
    unfold mergeInv at h
    unfold processAll
    exact ⟨h.1, h.2.1, h.2.2.1⟩
  · intro today
    refine ⟨?_, ?_, ?_, ?_⟩ <;>
      simp +decide [getEntry, calculate_holdings, processAll, sortTxns,
        List.insertionSort, List.orderedInsert, exC6, exC6r, mkTxn, processTxn,
        resolveKey, findExistingKey, ensureBucket, emptyHolding, applyTxn,
        sellFifo, finalizeHolding, normalize_symbol, stripSub, upChar] <;>
      norm_num

end InvMgr

namespace InvMgr

theorem filter_fd_entries (today : ℤ) (fd : FD) :
    (fdAllEntries today fd).filter (fun f => f.1 ≠ today) =
      (fdFlowEntries today fd).filter (fun f => f.1 ≠ today) := by
  unfold fdAllEntries fdFlowEntries
  by_cases h1 : fd.status = "active" ∧ fd.maturity_amount ≠ 0
  · by_cases h2 : today ≤ fd.maturity_date
    · rw [if_pos h2,
        if_neg (by rintro ⟨-, -, hlt⟩; exact absurd h2 (not_le.mpr hlt)),
        if_pos h1]
      simp [List.filter_cons]
    · push_neg at h2
      rw [if_neg (not_le.mpr h2), if_pos ⟨h1.1, h1.2, h2⟩, if_pos h1]
  · rw [if_neg (by rintro ⟨ha, hm, -⟩; exact h1 ⟨ha, hm⟩), if_neg h1]

theorem filter_fd_fold (today : ℤ) : ∀ fds : List FD,
    ((fds.foldr (fun fd acc => fdAllEntries today fd ++ acc) []).filter
      (fun f => f.1 ≠ today)) =
    ((fds.foldr (fun fd acc => fdFlowEntries today fd ++ acc) []).filter
      (fun f => f.1 ≠ today)) := by
  intro fds
  induction fds with
  | nil => rfl
  | cons fd rest ih =>
    simp only [List.foldr_cons, List.filter_append, ih,
      filter_fd_entries today fd]

theorem filter_epf_fold (today : ℤ) : ∀ accs : List EPF,
    ((accs.foldr (fun acc rest => epfOpeningEntries acc ++ rest) []).filter
      (fun f => f.1 ≠ today)) =
    ((accs.foldr (fun acc rest =>
        epfOpeningEntries acc ++
          (if 0 < acc.current_balance then [(today, acc.current_balance)]
           else []) ++ rest) []).filter (fun f => f.1 ≠ today)) := by
  intro accs
  induction accs with
  | nil => rfl
  | cons acc rest ih =>
    simp only [List.foldr_cons, List.filter_append, ih]
    have : ((if 0 < acc.current_balance then [(today, acc.current_balance)]
        else []) : List (ℤ × ℚ)).filter (fun f => f.1 ≠ today) = [] := by
      split <;> simp
    rw [this]
    simp

theorem filter_nps_fold (today : ℤ) : ∀ accs : List NPS,
    ((accs.foldr (fun acc rest => npsOpeningEntries acc ++ rest) []).filter
      (fun f => f.1 ≠ today)) =
    ((accs.foldr (fun acc rest =>
        npsOpeningEntries acc ++
          (if 0 < acc.current_value then [(today, acc.current_value)]
           else if 0 < acc.current_balance then [(today, acc.current_balance)]
           else []) ++ rest) []).filter (fun f => f.1 ≠ today)) := by
  intro accs
  induction accs with
  | nil => rfl
  | cons acc rest ih =>
    simp only [List.foldr_cons, List.filter_append, ih]
    have : ((if 0 < acc.current_value then [(today, acc.current_value)]
        else if 0 < acc.current_balance then [(today, acc.current_balance)]
        else []) : List (ℤ × ℚ)).filter (fun f => f.1 ≠ today) = [] := by
      split
      · simp
      · split <;> simp
    rw [this]
    simp

/-- Claim C9: the portfolio-wide XIRR stream equals the concatenation of
every asset type's own cash flows with all today-dated entries removed,
followed by exactly one synthetic `(today, total net worth)` inflow when
the total is positive (so the duplicate per-type today-dated
current-value entries collapse into the single combined figure while
every pre-today flow survives), and the solver is run once over that
combined stream. -/
theorem claim_C9_unified_xirr (pw : ℚ → ℚ → ℚ) (today : ℤ) (a : AllAssets) :
    finalFlows today a =
      ((stock_flows today a ++ mf_flows today a ++ fd_flows today a ++
        epf_flows today a ++ nps_flows today a).filter
          (fun f => f.1 ≠ today)) ++
      (if 0 < netWorthTotal today a then [(today, netWorthTotal today a)]
       else []) ∧
    (0 < netWorthTotal today a →
      (finalFlows today a).filter (fun f => f.1 = today) =
        [(today, netWorthTotal today a)]) ∧
    overallPortfolioXirr pw today a =
      (if 2 ≤ (finalFlows today a).length then xirr pw (finalFlows today a)
       else none) := by
  refine ⟨?_, ?_, rfl⟩
  · unfold finalFlows
    congr 1
    unfold allCashFlows
    have hmf : ((mf_flows today a).filter (fun f => f.1 ≠ today)) =
        ((mfTxnFlows a.mutual_funds).filter (fun f => f.1 ≠ today)) := by
      unfold mf_flows
      rw [List.filter_append]
      have : ((if 0 < mfInvestedValue a.mutual_funds
          then [(today, mfInvestedValue a.mutual_funds)]
          else []) : List (ℤ × ℚ)).filter (fun f => f.1 ≠ today) = [] := by
        split <;> simp
      rw [this]
      simp
    simp only [List.filter_append, List.append_assoc]
    rw [hmf, filter_fd_fold today a.fixed_deposits,
      filter_epf_fold today a.epf, filter_nps_fold today a.nps]
    rfl
  · intro hpos
    unfold finalFlows
    rw [if_pos hpos, List.filter_append]
    have h1 : (((allCashFlows today a).filter
        (fun f => f.1 ≠ today)).filter (fun f => f.1 = today)) = [] := by
      apply List.filter_eq_nil_iff.mpr
      intro f hf
      have := (List.mem_filter.mp hf).2
      simpa using this
    rw [h1]
    simp

theorem claim_C9_witness :
    (finalFlows 0 exC9).filter (fun f => f.1 = 0) =
      [((0 : ℤ), netWorthTotal 0 exC9)] :=
  (claim_C9_unified_xirr (fun _ _ => 1) 0 exC9).2.1
    (by norm_num [netWorthTotal, round2, roundHalfEven, exC9,
      stocksInvestedValue, mfInvestedValue, calculate_holdings, processAll,
      sortTxns, List.insertionSort, calculate_mf_holdings])

end InvMgr
